import Mathlib

/-!
Verification of the pdrtpa model checker's logic layer and verifier core.

The definitions below are a shallow embedding of the C++ sources:
  * `src/logger.hpp` (the logic layer: variables, literals, CNF formulas,
    cubes, and the CaDiCaL solver wrapper), and
  * `src/verifier.cpp` / `src/verifier.hpp` (the verifier core).

Machine integers are modelled as `Int`/`Nat` (variable ids are positive and
tiny, so overflow is irrelevant).  The external SAT solver is modelled by
oracle parameters: a query's satisfiability is an oracle answer, a model is an
assignment function `Nat → Bool` handed to `get_model`, and an unsat core is a
membership predicate handed to `get_core`.
-/

set_option autoImplicit false

namespace Pdrtpa

/- Literals are stored in DIMACS style, as in the C++ `literal` class: a
signed integer (here a plain `Int`) whose absolute value is the variable id;
`0` is the clause separator. -/

/-- The clause separator literal (`literal::separator`, value `0`). -/
def sepLit : Int := 0

/-- Literal negation, `operator!` on `literal`: flips the sign. -/
def lneg (l : Int) : Int := -l

/-- The variable of a literal (`literal::var`, absolute value). -/
def lvar (l : Int) : Nat := l.natAbs

/-- Polarity of a literal (`literal::positive`, `_value >= 0`). -/
def lpos (l : Int) : Bool := decide (0 ≤ l)

/-- The `literal{var, positive}` constructor. -/
def mkLit (v : Nat) (positive : Bool) : Int :=
  if positive then (v : Int) else -(v : Int)

/-- `literal::substitute`: same polarity, new variable. -/
def substituteLit (l : Int) (v : Nat) : Int := mkLit v (lpos l)

/-- The cube literal order `cube_literal_lt` from `logic.hpp`:
lexicographic on (variable id, polarity) with negative before positive. -/
def cube_literal_lt (l1 l2 : Int) : Bool :=
  lvar l1 < lvar l2 || (lvar l1 == lvar l2 && !lpos l1 && lpos l2)

/-- Insert a literal into a list sorted by `cube_literal_lt`, after every
element strictly below it.  Building block of the embedding of
`std::ranges::sort` with the `cube_literal_lt` comparator. -/
def insLit (l : Int) : List Int → List Int
  | [] => [l]
  | x :: xs => if cube_literal_lt x l then x :: insLit l xs else l :: x :: xs

/-- Sorting by `cube_literal_lt` (the helper `sort_literals` in
`verifier.cpp`, also the `cube` constructor's `std::ranges::sort`).
Since literals equivalent under the comparator are equal, every comparison
sort with this comparator produces this result. -/
def sort_literals (ls : List Int) : List Int := ls.foldr insLit []

/-- The sortedness check `std::ranges::is_sorted` with `cube_literal_lt`:
no adjacent pair is out of order. -/
def lits_sorted : List Int → Bool
  | [] => true
  | [_] => true
  | a :: b :: t => !cube_literal_lt b a && lits_sorted (b :: t)

/-- A cube (`class cube`): a vector of literals, sorted by
`cube_literal_lt` whenever it is built through the sorting constructor. -/
structure Cube where
  lits : List Int
deriving DecidableEq, Repr, Inhabited

/-- The sorting `cube` constructor `cube{std::vector<literal>}`. -/
def Cube.sorted (ls : List Int) : Cube := ⟨sort_literals ls⟩

/-- The trusting constructor `cube{vec, is_sorted}` used by the final
verifier, which skips re-sorting. -/
def Cube.ofSorted (ls : List Int) : Cube := ⟨ls⟩

/-- Membership of a literal in a cube: `cube::contains` performs
`std::ranges::binary_search` with `cube_literal_lt`, i.e. it looks for an
element equivalent under the comparator; equivalence under
`cube_literal_lt` coincides with equality of literals. -/
def Cube.containsL (c : Cube) (l : Int) : Bool :=
  c.lits.any (fun x => !cube_literal_lt x l && !cube_literal_lt l x)

/-- The `cube::find` operation: the literal under which a variable occurs
in the cube (positive probed first), if any. -/
def Cube.find (c : Cube) (v : Nat) : Option Int :=
  let l := mkLit v true
  if c.containsL l then some l
  else if c.containsL (lneg l) then some (lneg l)
  else none

/-- `cube::subsumes`, i.e. `std::ranges::includes(that, this,
cube_literal_lt)`: the literals of `c` form a sub-multiset of the literals
of `d`, both sorted. -/
def includesSorted (big small : List Int) : Bool :=
  match big, small with
  | _, [] => true
  | [], _ :: _ => false
  | b :: bs, s :: ss =>
    if cube_literal_lt s b then false
    else if cube_literal_lt b s then includesSorted bs (s :: ss)
    else includesSorted bs ss

/-- `c.subsumes d`: every literal of `c` appears in `d`. -/
def Cube.subsumes (c d : Cube) : Bool := includesSorted d.lits c.lits

/-- A CNF formula (`class cnf_formula`): a flat literal sequence in DIMACS
format, clauses terminated by `sepLit`. -/
structure CnfFormula where
  lits : List Int
deriving DecidableEq, Repr, Inhabited

/-- `cnf_formula::add_clause(span)`: append the clause and a separator. -/
def CnfFormula.add_clause (f : CnfFormula) (clause : List Int) : CnfFormula :=
  ⟨f.lits ++ clause ++ [sepLit]⟩

/-- `cnf_formula::transform(f)`: apply `g` to every non-separator literal
in place. -/
def CnfFormula.transform (f : CnfFormula) (g : Int → Int) : CnfFormula :=
  ⟨f.lits.map (fun l => if l = sepLit then l else g l)⟩

/-- `cnf_formula::map(f)`: like `transform` but building a fresh formula
(separators are preserved, everything else mapped). -/
def CnfFormula.mapLits (f : CnfFormula) (g : Int → Int) : CnfFormula :=
  ⟨f.lits.map (fun l => if l = sepLit then sepLit else g l)⟩

/-- `cnf_formula::activate(v)`: insert the negated activator literal in
front of every separator, so each clause `C` becomes `C ∨ ¬v`. -/
def CnfFormula.activate (f : CnfFormula) (v : Nat) : CnfFormula :=
  ⟨f.lits.flatMap (fun l => if l = sepLit then [lneg (mkLit v true), l] else [l])⟩

/-- `cube::negate`: the cube as a single negated clause — build a one-clause
formula from the literals and flip each literal in place. -/
def Cube.negate (c : Cube) : CnfFormula :=
  (CnfFormula.add_clause ⟨[]⟩ c.lits).transform lneg

/-- `cnf_formula::as_cube` in release mode: drop the separators and hand the
rest to the sorting cube constructor.  (Debug builds additionally assert
that every clause is a unit clause; see `CnfFormula.as_cubeChecked`.) -/
def CnfFormula.as_cube (f : CnfFormula) : Cube :=
  Cube.sorted (f.lits.filter (fun l => l ≠ sepLit))

/-- `cnf_formula::as_cube` with its debug assertions: the literal count must
be even and exactly half of the literals must be separators (the formula is
a conjunction of unit clauses); otherwise the assertion fails (`none`). -/
def CnfFormula.as_cubeChecked (f : CnfFormula) : Option Cube :=
  if f.lits.length % 2 = 0 ∧ (f.lits.count sepLit) * 2 = f.lits.length then
    some f.as_cube
  else
    none

/-- A contiguous variable range `[b, e)` (`class variable_range`). -/
structure VarRange where
  b : Nat
  e : Nat
deriving DecidableEq, Repr, Inhabited

/-- `variable_range::size`. -/
def VarRange.size (r : VarRange) : Nat := r.e - r.b

/-- `variable_range::contains`. -/
def VarRange.containsV (r : VarRange) (v : Nat) : Bool :=
  decide (r.b ≤ v) && decide (v < r.e)

/-- `variable_range::nth`. -/
def VarRange.nth (r : VarRange) (n : Nat) : Nat := r.b + n

/-- `variable_range::offset`. -/
def VarRange.offset (r : VarRange) (v : Nat) : Nat := v - r.b

/-- Iterating a `variable_range` from `b` to `e` yields the ids in
increasing order. -/
def VarRange.vars (r : VarRange) : List Nat :=
  (List.range r.size).map (fun i => r.b + i)

/-- `solver::get_model(range)` from `logger.hpp` lines 196–205, with the
solver's model abstracted as the assignment `val : Nat → Bool`
(`val v = is_true_in_model v`).  The source line 202 reads
`val.emplace_back( var, !is_true_in_model( var ) )`, so the emitted literal
for each variable of the range is `literal{var, NOT model-value}`. -/
def get_model (val : Nat → Bool) (r : VarRange) : List Int :=
  r.vars.map (fun v => mkLit v (!val v))

/-- `solver::get_core(span)`: keep the assumed literals that are in the
failed-assumption core, the core membership being the oracle `inCore`. -/
def get_core (inCore : Int → Bool) (ls : List Int) : List Int :=
  ls.filter inCore

/-- Modelled from the spec: `solver::get_core_mapped(span, f)` is called by
`generalize_blocked_arrow` but is absent from the solver wrapper in
`src/logger.hpp`; §4.6 step 1 of the spec says to extract the core over the
mapped (primed) literals and return the corresponding original literals,
i.e. keep those literals whose image under `f` is in the core. -/
def get_core_mapped (inCore : Int → Bool) (ls : List Int) (f : Int → Int) : List Int :=
  ls.filter (fun l => inCore (f l))

/-! ### Basic lemmas about the literal order and sorting -/

theorem cube_literal_lt_irrefl (l : Int) : cube_literal_lt l l = false := by
  simp [cube_literal_lt]

theorem cube_literal_lt_iff (a b : Int) :
    cube_literal_lt a b = true ↔
      (lvar a < lvar b ∨ (lvar a = lvar b ∧ a < 0 ∧ 0 ≤ b)) := by
  unfold cube_literal_lt lpos
  simp only [Bool.or_eq_true, Bool.and_eq_true, decide_eq_true_eq,
    beq_iff_eq, Bool.not_eq_true', decide_eq_false_iff_not, Int.not_le]
  tauto

theorem eq_of_incomp {a b : Int} (h1 : cube_literal_lt a b = false)
    (h2 : cube_literal_lt b a = false) : a = b := by
  have n1 : ¬ (lvar a < lvar b ∨ (lvar a = lvar b ∧ a < 0 ∧ 0 ≤ b)) := by
    rw [← cube_literal_lt_iff, h1]; simp
  have n2 : ¬ (lvar b < lvar a ∨ (lvar b = lvar a ∧ b < 0 ∧ 0 ≤ a)) := by
    rw [← cube_literal_lt_iff, h2]; simp
  rw [not_or] at n1 n2
  obtain ⟨h1a, h1b⟩ := n1
  obtain ⟨h2a, h2b⟩ := n2
  unfold lvar at h1a h1b h2a h2b
  have hab : a.natAbs = b.natAbs := by omega
  rcases Int.natAbs_eq_natAbs_iff.mp hab with heq | hneg
  · exact heq
  · by_cases ha : a < 0
    · exact absurd ⟨hab, ha, by omega⟩ h1b
    · by_cases hb0 : b < 0
      · exact absurd ⟨hab.symm, hb0, by omega⟩ h2b
      · omega

theorem beq_of_incomp {a b : Int} (h : (!cube_literal_lt a b && !cube_literal_lt b a) = true) :
    a = b := by
  simp only [Bool.and_eq_true, Bool.not_eq_true'] at h
  exact eq_of_incomp h.1 h.2

/-- The comparator-equivalence test used by `cube::contains` coincides with
equality, hence `containsL` is plain membership. -/
theorem containsL_iff_mem (c : Cube) (l : Int) :
    c.containsL l = true ↔ l ∈ c.lits := by
  unfold Cube.containsL
  rw [List.any_eq_true]
  constructor
  · rintro ⟨x, hx, hxl⟩
    have := beq_of_incomp hxl
    rwa [this] at hx
  · intro hl
    exact ⟨l, hl, by simp [cube_literal_lt_irrefl]⟩

theorem insLit_perm (l : Int) (ls : List Int) : List.Perm (insLit l ls) (l :: ls) := by
  induction ls with
  | nil => simp [insLit]
  | cons x xs ih =>
    by_cases h : cube_literal_lt x l
    · simp only [insLit, h, if_true]
      exact List.Perm.trans (List.Perm.cons x ih) (List.Perm.swap l x xs)
    · simp [insLit, h]

theorem sort_literals_perm (ls : List Int) : List.Perm (sort_literals ls) ls := by
  induction ls with
  | nil => simp [sort_literals]
  | cons x xs ih =>
    exact List.Perm.trans (insLit_perm x (sort_literals xs)) (List.Perm.cons x ih)

theorem mem_sort_literals {l : Int} {ls : List Int} :
    l ∈ sort_literals ls ↔ l ∈ ls :=
  (sort_literals_perm ls).mem_iff

/-! ## Claim C9 — cube negation and `as_cube` -/

theorem transform_filter_eq {ls : List Int} (hsep : sepLit ∉ ls) :
    ((ls ++ [sepLit]).map (fun l => if l = sepLit then l else lneg l)).filter
        (fun l => l ≠ sepLit) = ls.map lneg := by
  induction ls with
  | nil => simp [sepLit]
  | cons x xs ih =>
    have hsx : ¬ sepLit = x ∧ sepLit ∉ xs := by
      simpa [List.mem_cons, not_or] using hsep
    have hx : x ≠ sepLit := fun h => hsx.1 h.symm
    have hnx : lneg x ≠ sepLit := by
      intro h
      apply hx
      simp only [lneg, sepLit] at h ⊢
      omega
    simp only [List.cons_append, List.map_cons, List.filter_cons, if_neg hx]
    rw [ih hsx.2]
    simp [hnx]

/-- The composition `negate` then `as_cube` flips every literal: `transform`
negates every stored literal in the single produced clause, and `as_cube`
merely strips separators. -/
theorem negate_as_cube (c : Cube) (hsep : sepLit ∉ c.lits) :
    c.negate.as_cube = Cube.sorted (c.lits.map lneg) := by
  unfold Cube.negate CnfFormula.as_cube CnfFormula.transform CnfFormula.add_clause
  simp only [Cube.sorted, List.nil_append]
  rw [transform_filter_eq hsep]

/-- C9 counterexample: for the singleton cube `{x₁}` (where even the debug
assertions of `as_cube` succeed), `cube.negate().as_cube()` is `{¬x₁}`,
not the original cube. -/
theorem c9_negate_as_cube_not_involutive :
    (Cube.sorted [1]).negate.as_cubeChecked = some (Cube.sorted [-1]) ∧
    Cube.sorted [-1] ≠ Cube.sorted [1] := by
  constructor
  · rfl
  · decide

/-- C9 (amended): `cube.negate().as_cube()` is the literal-wise *negation*
of the cube (re-sorted), not the cube itself; applying the round-trip twice
recovers the original literals. -/
theorem c9_negate_as_cube (c : Cube) (hsep : sepLit ∉ c.lits) :
    c.negate.as_cube = Cube.sorted (c.lits.map lneg) :=
  negate_as_cube c hsep

/-- C9 witness: the amended statement at the concrete cube `{x₁, ¬x₂}`. -/
theorem c9_negate_as_cube_witness :
    sepLit ∉ (Cube.ofSorted [1, -2]).lits ∧
    (Cube.ofSorted [1, -2]).negate.as_cube = Cube.sorted ([1, -2].map lneg) := by
  refine ⟨by decide, c9_negate_as_cube (Cube.ofSorted [1, -2]) (by decide)⟩

/-! ## Claim C10 — polarity of `get_model` -/

/-- C10: the claim says `get_model` emits, for the i-th variable of the
range, a literal that is positive iff the variable is true in the solver's
model.  The code (`logger.hpp` line 202) constructs
`literal{var, !is_true_in_model(var)}`, so the polarity is inverted: on the
model assigning `true` to variable 1, the returned literal is `¬1`.
The repository's own test "Unsafe when input is true in the initial state"
(`test/verifier.cpp`) requires the positive literal there, so the code
contradicts its tests. -/
theorem c10_get_model_polarity_inverted :
    get_model (fun _ => true) ⟨1, 2⟩ = [-1] ∧
    lpos (-1) = false ∧
    (∀ val : Nat → Bool, ∀ r : VarRange,
      get_model val r = r.vars.map (fun v => mkLit v (!val v))) := by
  refine ⟨by decide, by decide, fun val r => rfl⟩

/-! ### Literal shifting and the verifier's variable layout -/

/-- `verifier::shift_literal(from, to, lit)`: move the variable to the same
offset of the target range, keeping polarity. -/
def shift_literal (src dst : VarRange) (l : Int) : Int :=
  substituteLit l (dst.nth (src.offset (lvar l)))

/-- `verifier::shift_literals(from, to, span)`: shift every literal whose
variable lies in the source range, dropping the others. -/
def shift_literals (src dst : VarRange) (ls : List Int) : List Int :=
  ls.filterMap (fun l =>
    if src.containsV (lvar l) then some (shift_literal src dst l) else none)

/-- The variable ranges a `verifier` instance owns (state `X`, next-state
`X'`, middle `X°`, inputs `Y = Y₁`, the separate right inputs `Y₂`). -/
structure Layout where
  stateVars : VarRange
  nextStateVars : VarRange
  middleVars : VarRange
  inputVars : VarRange
  leftInputVars : VarRange
  rightInputVars : VarRange
deriving Repr, Inhabited

/-- `verifier::prime(span)`: shift state literals to next-state. -/
def primeL (L : Layout) (ls : List Int) : List Int :=
  shift_literals L.stateVars L.nextStateVars ls

/-- `verifier::circle(span)`: shift state literals to the middle range. -/
def circleL (L : Layout) (ls : List Int) : List Int :=
  shift_literals L.stateVars L.middleVars ls

/-- `verifier::unprime(span)`. -/
def unprimeL (L : Layout) (ls : List Int) : List Int :=
  shift_literals L.nextStateVars L.stateVars ls

/-- `verifier::uncircle(span)`. -/
def uncircleL (L : Layout) (ls : List Int) : List Int :=
  shift_literals L.middleVars L.stateVars ls

/-- The helper `union_sorted` of `verifier.cpp`: concatenate two sorted
literal vectors (the second entirely above the first) into a cube without
re-sorting. -/
def union_sorted (a b : List Int) : Cube := Cube.ofSorted (a ++ b)

/-! ### Frames and `block_arrow_at` -/

/-- One frame of the trace: the blocked arrows `(s, t)` stored at a level. -/
abbrev Frame := List (Cube × Cube)

/-- The swap-with-back removal loop inside `block_arrow_at`: starting at
index `i`, every element satisfying `p` is replaced by the final element,
which is then popped; otherwise the index advances. -/
def sweep {α : Type} (p : α → Bool) (dflt : α) (i : Nat) (xs : List α) : List α :=
  if h : i < xs.length then
    if p (xs.getD i dflt) then
      sweep p dflt i ((xs.set i (xs.getD (xs.length - 1) dflt)).dropLast)
    else
      sweep p dflt (i + 1) xs
  else xs
termination_by xs.length - i
decreasing_by
  · simp only [List.length_dropLast, List.length_set]
    omega
  · omega

theorem dropLast_cons_ne_nil {α : Type} (a : α) {l : List α} (h : l ≠ []) :
    (a :: l).dropLast = a :: l.dropLast := by
  cases l with
  | nil => exact absurd rfl h
  | cons y ys => rfl

/-- Swap-with-back removal keeps exactly the elements not satisfying `p`
(up to order): the prefix before `i` is preserved and the suffix is
filtered. -/
theorem sweep_perm_aux {α : Type} (p : α → Bool) (dflt : α) :
    ∀ (n i : Nat) (xs : List α), xs.length - i ≤ n →
      List.Perm (sweep p dflt i xs)
        (xs.take i ++ (xs.drop i).filter (fun a => !p a)) := by
  intro n
  induction n with
  | zero =>
    intro i xs hlen
    have hle : xs.length ≤ i := by omega
    rw [sweep]
    rw [dif_neg (by omega)]
    rw [List.take_of_length_le hle, List.drop_eq_nil_of_le hle]
    simp
  | succ n ih =>
    intro i xs hlen
    by_cases hi : i < xs.length
    · have hdropi : xs.drop i = xs.getD i dflt :: xs.drop (i + 1) := by
        rw [List.getD_eq_getElem xs dflt hi]
        exact (List.drop_eq_getElem_cons hi)
      by_cases hp : p (xs.getD i dflt)
      · -- removal step
        rw [sweep, dif_pos hi, if_pos hp]
        have hset : xs.set i (xs.getD (xs.length - 1) dflt) =
            xs.take i ++ xs.getD (xs.length - 1) dflt :: xs.drop (i + 1) := by
          rw [List.set_eq_take_append_cons_drop]
          rw [if_pos hi]
        have hfiltered : (xs.drop i).filter (fun a => !p a) =
            (xs.drop (i + 1)).filter (fun a => !p a) := by
          rw [hdropi, List.filter_cons]
          simp only [hp, Bool.not_true, Bool.false_eq_true, if_false]
        by_cases hlast : i = xs.length - 1
        · -- removing the final element: the back swaps with itself
          have hdrop : xs.drop (i + 1) = [] :=
            List.drop_eq_nil_of_le (by omega)
          have hxs' : (xs.set i (xs.getD (xs.length - 1) dflt)).dropLast = xs.take i := by
            rw [hset, hdrop]
            exact List.dropLast_concat
          rw [hxs']
          have hthis := ih i (xs.take i) (by simp only [List.length_take]; omega)
          have htake2 : (xs.take i).take i = xs.take i := by
            apply List.take_of_length_le
            simp [List.length_take]
          have hdrop2 : (xs.take i).drop i = [] := by
            apply List.drop_eq_nil_of_le
            simp [List.length_take]
          rw [htake2, hdrop2] at hthis
          simp only [List.filter_nil, List.append_nil] at hthis
          rw [hfiltered, hdrop, List.filter_nil, List.append_nil]
          exact hthis
        · -- removing a middle element
          have hlt : i < xs.length - 1 := by omega
          have hw : xs.drop (i + 1) ≠ [] := by
            intro hnil
            have := List.drop_eq_nil_iff.mp hnil
            omega
          have hxs' : (xs.set i (xs.getD (xs.length - 1) dflt)).dropLast =
              xs.take i ++ xs.getD (xs.length - 1) dflt :: (xs.drop (i + 1)).dropLast := by
            rw [hset, List.dropLast_append_of_ne_nil _ (by simp [hw]),
              dropLast_cons_ne_nil _ hw]
          rw [hxs']
          have hlastw : (xs.drop (i + 1)).getLast hw = xs.getD (xs.length - 1) dflt := by
            rw [List.getLast_eq_getElem]
            rw [List.getD_eq_getElem xs dflt (by omega)]
            rw [List.getElem_drop]
            congr 1
            simp only [List.length_drop]
            omega
          have hlen' : ((xs.set i (xs.getD (xs.length - 1) dflt)).dropLast).length - i ≤ n := by
            simp only [List.length_dropLast, List.length_set]
            omega
          have hih := ih i ((xs.set i (xs.getD (xs.length - 1) dflt)).dropLast) hlen'
          rw [hxs'] at hih
          have htki : (xs.take i).length = i := by
            simp only [List.length_take]
            omega
          rw [List.take_left' htki, List.drop_left' htki] at hih
          refine hih.trans ?_
          apply List.Perm.append_left
          rw [hfiltered]
          have hwsplit : xs.drop (i + 1) =
              (xs.drop (i + 1)).dropLast ++ [xs.getD (xs.length - 1) dflt] := by
            conv_lhs => rw [← List.dropLast_append_getLast hw]
            rw [hlastw]
          conv_rhs => rw [hwsplit]
          rw [List.filter_append]
          rw [show xs.getD (xs.length - 1) dflt :: (xs.drop (i + 1)).dropLast =
                [xs.getD (xs.length - 1) dflt] ++ (xs.drop (i + 1)).dropLast from rfl,
            List.filter_append]
          exact List.perm_append_comm
      · -- keep step
        rw [sweep, dif_pos hi, if_neg hp]
        have hih := ih (i + 1) xs (by omega)
        refine hih.trans ?_
        have htake4 : xs.take (i + 1) = xs.take i ++ [xs.getD i dflt] := by
          rw [List.getD_eq_getElem xs dflt hi]
          rw [← List.take_concat_get xs i hi]
          simp
        rw [htake4, hdropi, List.filter_cons]
        simp only [hp, Bool.not_false, if_true]
        simp
    · rw [sweep, dif_neg hi]
      have hle : xs.length ≤ i := by omega
      rw [List.take_of_length_le hle, List.drop_eq_nil_of_le hle]
      simp

theorem sweep_perm {α : Type} (p : α → Bool) (dflt : α) (xs : List α) :
    List.Perm (sweep p dflt 0 xs) (xs.filter (fun a => !p a)) := by
  have := sweep_perm_aux p dflt xs.length 0 xs (by omega)
  simpa using this

/-- The subsumption test of `block_arrow_at`'s sweep:
`s.subsumes(other_s) && t.subsumes(other_t)`. -/
def arrowSubsumed (s t : Cube) (a : Cube × Cube) : Bool :=
  s.subsumes a.1 && t.subsumes a.2

/-- Helper of `sweepFrames`: apply the swap-with-back removal to `count`
consecutive frames starting at index `d`. -/
def sweepFramesGo (s t : Cube) : Nat → Nat → List Frame → List Frame
  | _, 0, frames => frames
  | d, count + 1, frames =>
    sweepFramesGo s t (d + 1) count
      (frames.set d (sweep (arrowSubsumed s t) default 0 (frames.getD d [])))

/-- The outer sweep loop of `block_arrow_at`
(`for (int d = start_from; d <= level; ++d)` in the final source): apply the
swap-with-back removal to every frame from `d` to `stop` inclusive. -/
def sweepFrames (s t : Cube) (frames : List Frame) (d stop : Nat) : List Frame :=
  sweepFramesGo s t d (stop + 1 - d) frames

/-- What `block_arrow_at` does to the two solvers, recorded as the lists of
formulas it asserts. -/
structure BlockResult where
  frames : List Frame
  errorAdds : List CnfFormula
  consecAdds : List CnfFormula
deriving Repr

/-- `verifier::block_arrow_at(s, t, level, start_from)` from the final
version of `verifier.cpp` (lines 1495–1533): sweep subsumed arrows from
frames `start_from..level`, append `(s, t)` to `blocked_arrows[level]`, and
assert one activated clause (the negated union of `s` and `prime(t)`) into
the error solver plus two activated clauses (the negated unions of `s` with
`circle(t)` and of `prime(t)` with `circle(s)`) into the consecution
solver, all under the activator of frame `level`. -/
def block_arrow_at (L : Layout) (activators : List Nat) (frames : List Frame)
    (s t : Cube) (level start_from : Nat) : BlockResult :=
  let swept := sweepFrames s t frames start_from level
  let v := activators.getD level 0
  { frames := swept.set level ((swept.getD level []) ++ [(s, t)])
    errorAdds := [((union_sorted s.lits (primeL L t.lits)).negate).activate v]
    consecAdds :=
      [((union_sorted s.lits (circleL L t.lits)).negate).activate v,
       ((union_sorted (primeL L t.lits) (circleL L s.lits)).negate).activate v] }

theorem getD_set_self {α : Type} (l : List α) (d : Nat) (x dflt : α)
    (h : d < l.length) : (l.set d x).getD d dflt = x := by
  rw [List.getD_eq_getElem _ _ (by simpa using h)]
  exact List.getElem_set_self (by simpa using h)

theorem getD_set_other {α : Type} (l : List α) (d k : Nat) (x dflt : α)
    (h : k ≠ d) : (l.set d x).getD k dflt = l.getD k dflt := by
  rw [List.getD_eq_getElem?_getD, List.getD_eq_getElem?_getD]
  rw [List.getElem?_set_ne (fun hx => h hx.symm)]

theorem sweepFramesGo_length (s t : Cube) :
    ∀ (count d : Nat) (frames : List Frame),
      (sweepFramesGo s t d count frames).length = frames.length := by
  intro count
  induction count with
  | zero => intro d frames; rfl
  | succ n ih =>
    intro d frames
    show (sweepFramesGo s t (d + 1) n _).length = _
    rw [ih]
    exact List.length_set _ _ _

theorem sweepFramesGo_getD (s t : Cube) :
    ∀ (count d : Nat) (frames : List Frame), d + count ≤ frames.length →
      ∀ k, (sweepFramesGo s t d count frames).getD k [] =
        if d ≤ k ∧ k < d + count then
          sweep (arrowSubsumed s t) default 0 (frames.getD k [])
        else frames.getD k [] := by
  intro count
  induction count with
  | zero =>
    intro d frames hlen k
    rw [if_neg (by omega)]
    rfl
  | succ n ih =>
    intro d frames hlen k
    show (sweepFramesGo s t (d + 1) n _).getD k [] = _
    rw [ih (d + 1) _ (by rw [List.length_set]; omega) k]
    by_cases hk : k = d
    · subst hk
      rw [if_neg (by omega), if_pos ⟨Nat.le_refl k, by omega⟩]
      exact getD_set_self _ _ _ _ (by omega)
    · rw [getD_set_other _ _ _ _ _ hk]
      by_cases hk2 : d + 1 ≤ k ∧ k < d + 1 + n
      · rw [if_pos hk2, if_pos ⟨by omega, by omega⟩]
      · rw [if_neg hk2, if_neg (by omega)]

theorem sweepFrames_length (s t : Cube) (frames : List Frame) (d stop : Nat) :
    (sweepFrames s t frames d stop).length = frames.length :=
  sweepFramesGo_length s t _ _ _

theorem sweepFrames_getD (s t : Cube) (frames : List Frame) (d stop : Nat)
    (hd : d ≤ stop + 1) (hlen : stop < frames.length) (k : Nat) :
    (sweepFrames s t frames d stop).getD k [] =
      if d ≤ k ∧ k ≤ stop then
        sweep (arrowSubsumed s t) default 0 (frames.getD k [])
      else frames.getD k [] := by
  unfold sweepFrames
  rw [sweepFramesGo_getD s t (stop + 1 - d) d frames (by omega) k]
  by_cases hk : d ≤ k ∧ k ≤ stop
  · rw [if_pos ⟨hk.1, by omega⟩, if_pos hk]
  · rw [if_neg (by omega), if_neg hk]

/-- C4 counterexample: `block_arrow_at` sweeps only frames
`start_from..level`, not `start_from..depth`.  With three frames
(depth = 2), blocking `([1], [2])` at level 1 leaves the pair
`([1,3], [2,4])` stored in frame 2 even though it is subsumed. -/
theorem c4_sweep_stops_at_level :
    arrowSubsumed (Cube.ofSorted [1]) (Cube.ofSorted [2])
        (Cube.ofSorted [1, 3], Cube.ofSorted [2, 4]) = true ∧
    (block_arrow_at
        ⟨⟨1, 3⟩, ⟨3, 5⟩, ⟨5, 7⟩, ⟨7, 7⟩, ⟨7, 7⟩, ⟨7, 7⟩⟩ [10, 11, 12]
        [[], [], [(Cube.ofSorted [1, 3], Cube.ofSorted [2, 4])]]
        (Cube.ofSorted [1]) (Cube.ofSorted [2]) 1 1).frames.getD 2 [] =
      [(Cube.ofSorted [1, 3], Cube.ofSorted [2, 4])] := by
  constructor
  · decide
  · rfl

/-- C4 (amended): `block_arrow_at(s, t, level, start_from)` removes, from
every frame `d` with `start_from ≤ d ≤ level` (not up to `depth`), exactly
the stored pairs subsumed by `(s, t)`; it appends `(s, t)` to
`blocked_arrows[level]`; frames below `start_from` and above `level` are
untouched. -/
theorem c4_block_arrow_at_frames (L : Layout) (activators : List Nat)
    (frames : List Frame) (s t : Cube) (level start_from : Nat)
    (h2 : start_from ≤ level) (h3 : level < frames.length) :
    (block_arrow_at L activators frames s t level start_from).frames.length =
      frames.length ∧
    (∀ d, d < start_from →
      (block_arrow_at L activators frames s t level start_from).frames.getD d [] =
        frames.getD d []) ∧
    (∀ d, level < d →
      (block_arrow_at L activators frames s t level start_from).frames.getD d [] =
        frames.getD d []) ∧
    (∀ d, start_from ≤ d → d < level →
      List.Perm
        ((block_arrow_at L activators frames s t level start_from).frames.getD d [])
        ((frames.getD d []).filter (fun a => !arrowSubsumed s t a))) ∧
    List.Perm
      ((block_arrow_at L activators frames s t level start_from).frames.getD level [])
      ((frames.getD level []).filter (fun a => !arrowSubsumed s t a) ++ [(s, t)]) := by
  have hswlen : (sweepFrames s t frames start_from level).length = frames.length :=
    sweepFrames_length s t frames start_from level
  have hget := sweepFrames_getD s t frames start_from level (by omega) h3
  refine ⟨?_, ?_, ?_, ?_, ?_⟩
  · show ((sweepFrames s t frames start_from level).set level _).length = frames.length
    rw [List.length_set, hswlen]
  · intro d hd
    show ((sweepFrames s t frames start_from level).set level _).getD d [] = _
    rw [getD_set_other _ _ _ _ _ (by omega), hget d, if_neg (by omega)]
  · intro d hd
    show ((sweepFrames s t frames start_from level).set level _).getD d [] = _
    rw [getD_set_other _ _ _ _ _ (by omega), hget d, if_neg (by omega)]
  · intro d hd1 hd2
    show List.Perm (((sweepFrames s t frames start_from level).set level _).getD d []) _
    rw [getD_set_other _ _ _ _ _ (by omega), hget d, if_pos ⟨hd1, by omega⟩]
    exact sweep_perm _ _ _
  · show List.Perm (((sweepFrames s t frames start_from level).set level _).getD level []) _
    rw [getD_set_self _ _ _ _ (by omega)]
    rw [hget level, if_pos ⟨h2, Nat.le_refl level⟩]
    exact List.Perm.append_right [(s, t)] (sweep_perm _ _ _)

/-- C4 witness: the amended theorem at a concrete instance (depth 2, level
1): frame 1 is swept and receives the arrow, frame 2 keeps its subsumed
pair. -/
theorem c4_block_arrow_at_frames_witness :
    (1 : Nat) ≤ 1 ∧ (1 : Nat) < 3 ∧
    ((block_arrow_at ⟨⟨1, 3⟩, ⟨3, 5⟩, ⟨5, 7⟩, ⟨7, 7⟩, ⟨7, 7⟩, ⟨7, 7⟩⟩ [10, 11, 12]
        [[], [], [(Cube.ofSorted [1, 3], Cube.ofSorted [2, 4])]]
        (Cube.ofSorted [1]) (Cube.ofSorted [2]) 1 1).frames.length = 3 ∧
      (∀ d, d < 1 →
        (block_arrow_at ⟨⟨1, 3⟩, ⟨3, 5⟩, ⟨5, 7⟩, ⟨7, 7⟩, ⟨7, 7⟩, ⟨7, 7⟩⟩ [10, 11, 12]
          [[], [], [(Cube.ofSorted [1, 3], Cube.ofSorted [2, 4])]]
          (Cube.ofSorted [1]) (Cube.ofSorted [2]) 1 1).frames.getD d [] =
          [[], [], [(Cube.ofSorted [1, 3], Cube.ofSorted [2, 4])]].getD d []) ∧
      (∀ d, 1 < d →
        (block_arrow_at ⟨⟨1, 3⟩, ⟨3, 5⟩, ⟨5, 7⟩, ⟨7, 7⟩, ⟨7, 7⟩, ⟨7, 7⟩⟩ [10, 11, 12]
          [[], [], [(Cube.ofSorted [1, 3], Cube.ofSorted [2, 4])]]
          (Cube.ofSorted [1]) (Cube.ofSorted [2]) 1 1).frames.getD d [] =
          [[], [], [(Cube.ofSorted [1, 3], Cube.ofSorted [2, 4])]].getD d []) ∧
      (∀ d, 1 ≤ d → d < 1 →
        List.Perm
          ((block_arrow_at ⟨⟨1, 3⟩, ⟨3, 5⟩, ⟨5, 7⟩, ⟨7, 7⟩, ⟨7, 7⟩, ⟨7, 7⟩⟩ [10, 11, 12]
            [[], [], [(Cube.ofSorted [1, 3], Cube.ofSorted [2, 4])]]
            (Cube.ofSorted [1]) (Cube.ofSorted [2]) 1 1).frames.getD d [])
          (([[], [], [(Cube.ofSorted [1, 3], Cube.ofSorted [2, 4])]].getD d
              ([] : Frame)).filter
            (fun a => !arrowSubsumed (Cube.ofSorted [1]) (Cube.ofSorted [2]) a))) ∧
      List.Perm
        ((block_arrow_at ⟨⟨1, 3⟩, ⟨3, 5⟩, ⟨5, 7⟩, ⟨7, 7⟩, ⟨7, 7⟩, ⟨7, 7⟩⟩ [10, 11, 12]
          [[], [], [(Cube.ofSorted [1, 3], Cube.ofSorted [2, 4])]]
          (Cube.ofSorted [1]) (Cube.ofSorted [2]) 1 1).frames.getD 1 [])
        (([[], [], [(Cube.ofSorted [1, 3], Cube.ofSorted [2, 4])]].getD 1
            ([] : Frame)).filter
          (fun a => !arrowSubsumed (Cube.ofSorted [1]) (Cube.ofSorted [2]) a) ++
          [(Cube.ofSorted [1], Cube.ofSorted [2])])) :=
  ⟨Nat.le_refl 1, by omega,
    c4_block_arrow_at_frames _ _ _ _ _ 1 1 (Nat.le_refl 1) (by decide)⟩

/-! ## Claim C1 — the clauses asserted for a blocked arrow -/

theorem lneg_ne_sep {l : Int} (h : l ≠ sepLit) : lneg l ≠ sepLit := by
  simp only [lneg, sepLit] at h ⊢
  omega

theorem mkLit_ne_sep (v : Nat) (p : Bool) (h : 1 ≤ v) : mkLit v p ≠ sepLit := by
  unfold mkLit sepLit
  cases p <;> simp <;> omega

theorem shift_literals_ne_sep {src dst : VarRange} {ls : List Int}
    (hb : 1 ≤ dst.b) {x : Int} (hx : x ∈ shift_literals src dst ls) :
    x ≠ sepLit := by
  unfold shift_literals at hx
  rw [List.mem_filterMap] at hx
  obtain ⟨l, _, hfl⟩ := hx
  by_cases hc : src.containsV (lvar l)
  · rw [if_pos hc] at hfl
    obtain rfl : shift_literal src dst l = x := Option.some.inj hfl
    unfold shift_literal substituteLit
    exact mkLit_ne_sep _ _ (by unfold VarRange.nth; omega)
  · rw [if_neg hc] at hfl
    exact absurd hfl (Option.noConfusion)

theorem transform_lneg_eq_map (ls : List Int) :
    ls.map (fun l => if l = sepLit then l else lneg l) = ls.map lneg := by
  induction ls with
  | nil => rfl
  | cons x xs ih =>
    simp only [List.map_cons, ih]
    by_cases hx : x = sepLit
    · subst hx
      simp [sepLit, lneg]
    · rw [if_neg hx]

/-- The negation of `union_sorted a b` is the single clause with every
literal of `a ++ b` flipped. -/
theorem negate_union (a b : List Int) :
    (union_sorted a b).negate = ⟨(a ++ b).map lneg ++ [sepLit]⟩ := by
  unfold union_sorted Cube.ofSorted Cube.negate CnfFormula.add_clause CnfFormula.transform
  simp only [List.nil_append]
  congr 1
  rw [List.map_append, transform_lneg_eq_map]
  simp [sepLit, lneg]

theorem flatMap_keep_of_no_sep {x : Int} :
    ∀ (ls : List Int), sepLit ∉ ls →
      ls.flatMap (fun l => if l = sepLit then [x, l] else [l]) = ls := by
  intro ls
  induction ls with
  | nil => intro _; rfl
  | cons y ys ih =>
    intro h
    have hy : y ≠ sepLit := fun hc => h (by rw [hc]; exact List.mem_cons_self _ _)
    have hys : sepLit ∉ ys := fun hc => h (List.mem_cons_of_mem _ hc)
    simp only [List.flatMap_cons, if_neg hy, ih hys]
    rfl

/-- Activating a single separator-free clause appends the negated activator
literal right before the final separator. -/
theorem activate_clause (ls : List Int) (v : Nat) (h : sepLit ∉ ls) :
    CnfFormula.activate ⟨ls ++ [sepLit]⟩ v = ⟨ls ++ [lneg (mkLit v true), sepLit]⟩ := by
  unfold CnfFormula.activate
  congr 1
  rw [List.flatMap_append]
  rw [flatMap_keep_of_no_sep ls h]
  simp

/-- C1 counterexample: with state variables `{1, 2}`, next-state `{3, 4}`,
middle `{5, 6}` and frame-1 activator `11`, blocking the arrow
`([x1], [x2])` at level 1 asserts the one-step clause `¬x1 ∨ ¬x4 ∨ ¬a11`
into the ERROR solver; the consecution solver receives only the two
half-step clauses, so the claim that all three clauses go to the
consecution solver fails. -/
theorem c1_one_step_clause_not_in_consecution :
    (block_arrow_at ⟨⟨1, 3⟩, ⟨3, 5⟩, ⟨5, 7⟩, ⟨7, 7⟩, ⟨7, 7⟩, ⟨7, 7⟩⟩ [10, 11]
        [[], []] (Cube.ofSorted [1]) (Cube.ofSorted [2]) 1 1).errorAdds =
      [⟨[-1, -4, -11, 0]⟩] ∧
    (block_arrow_at ⟨⟨1, 3⟩, ⟨3, 5⟩, ⟨5, 7⟩, ⟨7, 7⟩, ⟨7, 7⟩, ⟨7, 7⟩⟩ [10, 11]
        [[], []] (Cube.ofSorted [1]) (Cube.ofSorted [2]) 1 1).consecAdds =
      [⟨[-1, -6, -11, 0]⟩, ⟨[-4, -5, -11, 0]⟩] ∧
    (⟨[-1, -4, -11, 0]⟩ : CnfFormula) ∉
      (block_arrow_at ⟨⟨1, 3⟩, ⟨3, 5⟩, ⟨5, 7⟩, ⟨7, 7⟩, ⟨7, 7⟩, ⟨7, 7⟩⟩ [10, 11]
        [[], []] (Cube.ofSorted [1]) (Cube.ofSorted [2]) 1 1).consecAdds := by
  refine ⟨rfl, rfl, by decide⟩

/-- C1 (amended): for every blocked arrow `(s, t)` inserted at level `k`,
`block_arrow_at` asserts three clauses activated by the negated activator
of frame `k`, but distributed over the two solvers: the one-step clause
`¬(s ∧ t')` goes to the error solver, while the consecution solver receives
exactly the two half clauses `¬(s ∧ t°)` and `¬(t' ∧ s°)`. -/
theorem c1_blocked_arrow_clauses (L : Layout) (activators : List Nat)
    (frames : List Frame) (s t : Cube) (level start_from : Nat)
    (hb1 : 1 ≤ L.nextStateVars.b) (hb2 : 1 ≤ L.middleVars.b)
    (hs : ∀ l ∈ s.lits, l ≠ sepLit) (ht : ∀ l ∈ t.lits, l ≠ sepLit) :
    (block_arrow_at L activators frames s t level start_from).errorAdds =
      [⟨(s.lits ++ primeL L t.lits).map lneg ++
        [lneg (mkLit (activators.getD level 0) true), sepLit]⟩] ∧
    (block_arrow_at L activators frames s t level start_from).consecAdds =
      [⟨(s.lits ++ circleL L t.lits).map lneg ++
        [lneg (mkLit (activators.getD level 0) true), sepLit]⟩,
       ⟨(primeL L t.lits ++ circleL L s.lits).map lneg ++
        [lneg (mkLit (activators.getD level 0) true), sepLit]⟩] := by
  have hmapsep : ∀ (u : List Int), (∀ l ∈ u, l ≠ sepLit) →
      sepLit ∉ u.map lneg := by
    intro u hu hmem
    rw [List.mem_map] at hmem
    obtain ⟨l, hl, hfl⟩ := hmem
    exact lneg_ne_sep (hu l hl) hfl
  have hsp : ∀ l ∈ s.lits ++ primeL L t.lits, l ≠ sepLit := by
    intro l hl
    rcases List.mem_append.mp hl with h | h
    · exact hs l h
    · exact shift_literals_ne_sep hb1 h
  have hsc : ∀ l ∈ s.lits ++ circleL L t.lits, l ≠ sepLit := by
    intro l hl
    rcases List.mem_append.mp hl with h | h
    · exact hs l h
    · exact shift_literals_ne_sep hb2 h
  have hpc : ∀ l ∈ primeL L t.lits ++ circleL L s.lits, l ≠ sepLit := by
    intro l hl
    rcases List.mem_append.mp hl with h | h
    · exact shift_literals_ne_sep hb1 h
    · exact shift_literals_ne_sep hb2 h
  constructor
  · show [((union_sorted s.lits (primeL L t.lits)).negate).activate _] = _
    rw [negate_union, activate_clause _ _ (hmapsep _ hsp)]
  · show [((union_sorted s.lits (circleL L t.lits)).negate).activate _,
          ((union_sorted (primeL L t.lits) (circleL L s.lits)).negate).activate _] = _
    rw [negate_union, negate_union, activate_clause _ _ (hmapsep _ hsc),
      activate_clause _ _ (hmapsep _ hpc)]

/-- C1 witness: the amended theorem at the concrete instance of the
counterexample layout. -/
theorem c1_blocked_arrow_clauses_witness :
    (1 : Nat) ≤ 3 ∧ (1 : Nat) ≤ 5 ∧
    (block_arrow_at ⟨⟨1, 3⟩, ⟨3, 5⟩, ⟨5, 7⟩, ⟨7, 7⟩, ⟨7, 7⟩, ⟨7, 7⟩⟩ [10, 11]
        [[], []] (Cube.ofSorted [1]) (Cube.ofSorted [2]) 1 1).errorAdds =
      [⟨((Cube.ofSorted [1]).lits ++
          primeL ⟨⟨1, 3⟩, ⟨3, 5⟩, ⟨5, 7⟩, ⟨7, 7⟩, ⟨7, 7⟩, ⟨7, 7⟩⟩
            (Cube.ofSorted [2]).lits).map lneg ++
        [lneg (mkLit ([10, 11].getD 1 0) true), sepLit]⟩] := by
  refine ⟨by omega, by omega, ?_⟩
  exact (c1_blocked_arrow_clauses ⟨⟨1, 3⟩, ⟨3, 5⟩, ⟨5, 7⟩, ⟨7, 7⟩, ⟨7, 7⟩, ⟨7, 7⟩⟩
    [10, 11] [[], []] (Cube.ofSorted [1]) (Cube.ofSorted [2]) 1 1
    (by decide) (by decide) (by decide) (by decide)).1

/-! ## Claim C3 — `propagate` -/

/-- One pass of `verifier::propagate` at level `i` (lines 1580–1599 of the
final source): iterate over a snapshot of `blocked_arrows[i]` taken before
the pass; every arrow `(c, d)` whose doubled-step consecution query under
`activators_from(i) ∧ c ∧ prime(d)` is UNSAT (the oracle `unsatQ i c d`) is
re-blocked via `block_arrow_at(c, d, i+1, start_from = i)`. -/
def propagate_pass (L : Layout) (activators : List Nat)
    (unsatQ : Nat → Cube → Cube → Bool) (i : Nat) (frames : List Frame) :
    List Frame :=
  (frames.getD i []).foldl
    (fun fs a =>
      if unsatQ i a.1 a.2 then
        (block_arrow_at L activators fs a.1 a.2 (i + 1) i).frames
      else fs)
    frames

/-- The loop `for (int i = 1; i < depth(); ++i)` of `propagate`, with
`count` iterations remaining: after each pass, return `true` as soon as the
processed frame has become empty. -/
def propagateGo (L : Layout) (activators : List Nat)
    (unsatQ : Nat → Cube → Cube → Bool) : Nat → Nat → List Frame →
    Bool × List Frame
  | _, 0, frames => (false, frames)
  | i, count + 1, frames =>
    let fs' := propagate_pass L activators unsatQ i frames
    if fs'.getD i [] = [] then (true, fs')
    else propagateGo L activators unsatQ (i + 1) count fs'

/-- `verifier::propagate` (final source, lines 1568–1608): process levels
`1 .. depth-1` in order, where `depth = frames.length - 1`. -/
def propagate (L : Layout) (activators : List Nat)
    (unsatQ : Nat → Cube → Cube → Bool) (frames : List Frame) :
    Bool × List Frame :=
  propagateGo L activators unsatQ 1 (frames.length - 1 - 1) frames

/-- Reference composition of passes: apply `count` propagation passes at
consecutive levels starting from level `i`. -/
def passesSeq (L : Layout) (activators : List Nat)
    (unsatQ : Nat → Cube → Cube → Bool) : Nat → Nat → List Frame → List Frame
  | _, 0, frames => frames
  | i, count + 1, frames =>
    passesSeq L activators unsatQ (i + 1) count
      (propagate_pass L activators unsatQ i frames)

theorem propagateGo_iff (L : Layout) (activators : List Nat)
    (unsatQ : Nat → Cube → Cube → Bool) :
    ∀ (count i : Nat) (frames : List Frame),
      (propagateGo L activators unsatQ i count frames).1 = true ↔
        ∃ m, i ≤ m ∧ m < i + count ∧
          (passesSeq L activators unsatQ i (m - i + 1) frames).getD m [] = [] := by
  intro count
  induction count with
  | zero =>
    intro i frames
    constructor
    · intro h
      exact absurd h (by simp [propagateGo])
    · rintro ⟨m, h1, h2, _⟩
      omega
  | succ n ih =>
    intro i frames
    show (if (propagate_pass L activators unsatQ i frames).getD i [] = [] then _
          else propagateGo L activators unsatQ (i + 1) n
            (propagate_pass L activators unsatQ i frames)).1 = true ↔ _
    by_cases hempty : (propagate_pass L activators unsatQ i frames).getD i [] = []
    · rw [if_pos hempty]
      constructor
      · intro _
        refine ⟨i, Nat.le_refl i, by omega, ?_⟩
        have hii : i - i + 1 = 1 := by omega
        rw [hii]
        exact hempty
      · intro _
        rfl
    · rw [if_neg hempty]
      rw [ih (i + 1) (propagate_pass L activators unsatQ i frames)]
      constructor
      · rintro ⟨m, h1, h2, h3⟩
        refine ⟨m, by omega, by omega, ?_⟩
        have hm : m - i + 1 = (m - (i + 1) + 1) + 1 := by omega
        rw [hm]
        exact h3
      · rintro ⟨m, h1, h2, h3⟩
        by_cases hmi : m = i
        · subst hmi
          have : m - m + 1 = 1 := by omega
          rw [this] at h3
          exact absurd h3 hempty
        · refine ⟨m, by omega, by omega, ?_⟩
          have hm : m - i + 1 = (m - (i + 1) + 1) + 1 := by omega
          rw [hm] at h3
          exact h3

/-- C3: `propagate` processes levels `i = 1 .. depth-1` in order, each pass
re-blocking at `i+1` (with `start_from = i`) every snapshot arrow whose
doubled-step query is UNSAT, and it returns `true` exactly when some
processed frame `i` is empty right after its own pass. -/
theorem c3_propagate_returns_safe_iff (L : Layout) (activators : List Nat)
    (unsatQ : Nat → Cube → Cube → Bool) (frames : List Frame) :
    (propagate L activators unsatQ frames).1 = true ↔
      ∃ m, 1 ≤ m ∧ m < frames.length - 1 ∧
        (passesSeq L activators unsatQ 1 m frames).getD m [] = [] := by
  unfold propagate
  rw [propagateGo_iff]
  constructor
  · rintro ⟨m, h1, h2, h3⟩
    refine ⟨m, h1, by omega, ?_⟩
    have : m - 1 + 1 = m := by omega
    rwa [this] at h3
  · rintro ⟨m, h1, h2, h3⟩
    refine ⟨m, h1, by omega, ?_⟩
    have : m - 1 + 1 = m := by omega
    rwa [this]

/-! ## Claim C8 — `build_counterexample` -/

/-- A node of the counterexample tree (`struct cex_entry`): source and
target state cubes, optional input cube, optional child handles. -/
structure CexEntry where
  s : Cube
  t : Cube
  inputs : Option Cube
  left : Option Nat
  right : Option Nat
deriving DecidableEq, Repr, Inhabited

/-- The row built for one cex node (`build_counterexample`'s inner loop):
one literal per input variable, in range order, taken from the node's input
cube via `cube::find`, defaulting to the negative literal. -/
def rowOf (inputRange : VarRange) (c : Cube) : List Int :=
  inputRange.vars.map (fun v => (c.find v).getD (mkLit v false))

/-- The recursive lambda `visit` of `verifier::build_counterexample`:
post-order traversal (left, right, then the node itself), emitting a row
for every node holding an input cube.  `fuel` bounds the recursion depth
(children created by the verifier always have larger handles, so
`pool.length` steps suffice). -/
def visitCex (pool : List CexEntry) (r : VarRange) :
    Nat → Option Nat → List (List Int)
  | _, none => []
  | 0, some _ => []
  | fuel + 1, some h =>
    visitCex pool r fuel (pool.getD h default).left ++
      visitCex pool r fuel (pool.getD h default).right ++
      (match (pool.getD h default).inputs with
       | some c => [rowOf r c]
       | none => [])

/-- `verifier::build_counterexample(root)`. -/
def build_counterexample (pool : List CexEntry) (r : VarRange) (root : Nat) :
    List (List Int) :=
  visitCex pool r (pool.length + 1) (some root)

/-- Reference left-to-right post-order listing of the handles reachable
from a node. -/
def postOrderHandles (pool : List CexEntry) : Nat → Option Nat → List Nat
  | _, none => []
  | 0, some _ => []
  | fuel + 1, some h =>
    postOrderHandles pool fuel (pool.getD h default).left ++
      postOrderHandles pool fuel (pool.getD h default).right ++ [h]

theorem visitCex_eq_postOrder (pool : List CexEntry) (r : VarRange) :
    ∀ (fuel : Nat) (oh : Option Nat),
      visitCex pool r fuel oh =
        (postOrderHandles pool fuel oh).filterMap
          (fun h => ((pool.getD h default).inputs).map (rowOf r)) := by
  intro fuel
  induction fuel with
  | zero =>
    intro oh
    cases oh with
    | none => rfl
    | some h => rfl
  | succ n ih =>
    intro oh
    cases oh with
    | none => rfl
    | some h =>
      show visitCex pool r n _ ++ visitCex pool r n _ ++ _ = _
      rw [ih, ih]
      show _ = (postOrderHandles pool n _ ++ postOrderHandles pool n _ ++ [h]).filterMap _
      rw [List.filterMap_append, List.filterMap_append]
      congr 1
      rw [List.filterMap_cons, List.filterMap_nil]
      cases hin : (pool.getD h default).inputs with
      | none =>
        rw [List.getD_eq_getElem?_getD] at hin
        simp [hin]
      | some c =>
        rw [List.getD_eq_getElem?_getD] at hin
        simp [hin]

theorem lneg_mkLit_true (v : Nat) : lneg (mkLit v true) = mkLit v false := by
  simp [lneg, mkLit]

/-- Every row literal sits over the right variable with polarity determined
by the positive literal's membership in the input cube. -/
theorem rowOf_getD (r : VarRange) (c : Cube) (i : Nat) (hi : i < r.size) :
    (rowOf r c).getD i 0 =
      (if c.containsL (mkLit (r.nth i) true) then mkLit (r.nth i) true
       else mkLit (r.nth i) false) := by
  unfold rowOf VarRange.vars
  rw [List.getD_eq_getElem _ _ (by simpa using hi)]
  rw [List.getElem_map]
  rw [List.getElem_map]
  rw [List.getElem_range]
  show ((c.find (r.b + i)).getD (mkLit (r.b + i) false)) = _
  unfold VarRange.nth
  simp only [Cube.find]
  by_cases h1 : c.containsL (mkLit (r.b + i) true)
  · simp [h1]
  · by_cases h2 : c.containsL (mkLit (r.b + i) false)
    · simp [h1, h2, lneg_mkLit_true]
    · simp [h1, h2, lneg_mkLit_true]

theorem rowOf_length (r : VarRange) (c : Cube) : (rowOf r c).length = r.size := by
  unfold rowOf VarRange.vars
  simp

/-- C8: `build_counterexample` performs a left-before-right post-order
traversal, emits exactly one row per visited node holding an input cube,
and each row lists, for every input variable in range order, the literal of
that variable found in the node's cube (defaulting to negative polarity
when absent). -/
theorem c8_build_counterexample (pool : List CexEntry) (r : VarRange)
    (root : Nat) :
    build_counterexample pool r root =
      (postOrderHandles pool (pool.length + 1) (some root)).filterMap
        (fun h => ((pool.getD h default).inputs).map (rowOf r)) ∧
    (∀ c : Cube, (rowOf r c).length = r.size) ∧
    (∀ (c : Cube) (i : Nat), i < r.size →
      (rowOf r c).getD i 0 =
        (if c.containsL (mkLit (r.nth i) true) then mkLit (r.nth i) true
         else mkLit (r.nth i) false)) :=
  ⟨visitCex_eq_postOrder pool r _ _, fun c => rowOf_length r c,
    fun c i hi => rowOf_getD r c i hi⟩

/-- C8 witness: the theorem instantiated on a concrete two-node pool (a
parent whose left child carries inputs), with the inner bound discharged at
`i = 0`. -/
theorem c8_build_counterexample_witness :
    build_counterexample
        ([⟨Cube.ofSorted [1], Cube.ofSorted [2], some (Cube.ofSorted [7]), some 1, none⟩,
          ⟨Cube.ofSorted [1], Cube.ofSorted [1], some (Cube.ofSorted [-7]), none, none⟩] :
          List CexEntry)
        ⟨7, 8⟩ 0 =
      (postOrderHandles
        ([⟨Cube.ofSorted [1], Cube.ofSorted [2], some (Cube.ofSorted [7]), some 1, none⟩,
          ⟨Cube.ofSorted [1], Cube.ofSorted [1], some (Cube.ofSorted [-7]), none, none⟩] :
          List CexEntry)
        3 (some 0)).filterMap
        (fun h =>
          ((([⟨Cube.ofSorted [1], Cube.ofSorted [2], some (Cube.ofSorted [7]), some 1, none⟩,
              ⟨Cube.ofSorted [1], Cube.ofSorted [1], some (Cube.ofSorted [-7]), none, none⟩] :
              List CexEntry).getD
              h default).inputs).map (rowOf ⟨7, 8⟩)) ∧
    (0 : Nat) < VarRange.size ⟨7, 8⟩ ∧
    (rowOf ⟨7, 8⟩ (Cube.ofSorted [7])).getD 0 0 =
      (if (Cube.ofSorted [7]).containsL (mkLit (VarRange.nth ⟨7, 8⟩ 0) true)
       then mkLit (VarRange.nth ⟨7, 8⟩ 0) true
       else mkLit (VarRange.nth ⟨7, 8⟩ 0) false) := by
  refine ⟨(c8_build_counterexample _ ⟨7, 8⟩ 0).1, by decide, ?_⟩
  exact (c8_build_counterexample
    ([⟨Cube.ofSorted [1], Cube.ofSorted [2], some (Cube.ofSorted [7]), some 1, none⟩,
      ⟨Cube.ofSorted [1], Cube.ofSorted [1], some (Cube.ofSorted [-7]), none, none⟩] :
      List CexEntry)
    ⟨7, 8⟩ 0).2.2 (Cube.ofSorted [7]) 0 (by decide)

/-! ## Claim C6 — trivial cases before the main loop -/

/-- Oracle for the two fresh SAT instances of `check_trivial_cases`:
whether `Init ∧ Error` is satisfiable (with its model), and whether
`Init ∧ T(X, Y₁, X') ∧ Error(X', Y₂)` is satisfiable (with its model). -/
structure TrivialOracle where
  sat0 : Bool
  val0 : Nat → Bool
  sat1 : Bool
  val1 : Nat → Bool

/-- `verifier::check_trivial_cases` (final source, lines 1162–1226): if the
first query is SAT, one witness row over the input variables; else if the
second query is SAT, two rows — the models over `Y₁` and `Y₂`, shifted back
onto the input range; else nothing. -/
def check_trivial_cases (L : Layout) (o : TrivialOracle) :
    Option (List (List Int)) :=
  if o.sat0 then
    some [get_model o.val0 L.inputVars]
  else if o.sat1 then
    some
      [shift_literals L.leftInputVars L.inputVars (get_model o.val1 L.leftInputVars),
       shift_literals L.rightInputVars L.inputVars (get_model o.val1 L.rightInputVars)]
  else none

/-- The head of `verifier::check` (lines 1133–1137): if
`check_trivial_cases` produced a result, `run` returns it; only otherwise
does the main loop start (here abstracted as the continuation
`mainLoop`). -/
def check_entry (L : Layout) (o : TrivialOracle)
    (mainLoop : Unit → Option (List (List Int))) : Option (List (List Int)) :=
  match check_trivial_cases L o with
  | some res => some res
  | none => mainLoop ()

theorem lvar_mkLit (v : Nat) (p : Bool) : lvar (mkLit v p) = v := by
  cases p <;> simp [mkLit, lvar]

theorem lpos_mkLit (v : Nat) (p : Bool) (h : 1 ≤ v) : lpos (mkLit v p) = p := by
  cases p <;> simp [mkLit, lpos] <;> omega

theorem get_model_length (val : Nat → Bool) (r : VarRange) :
    (get_model val r).length = r.size := by
  unfold get_model VarRange.vars
  simp

/-- Shifting a full model of the source range onto a target range keeps
every literal, moving it to the same offset with polarity intact. -/
theorem shift_get_model (src dst : VarRange) (val : Nat → Bool)
    (hb : 1 ≤ src.b) :
    shift_literals src dst (get_model val src) =
      (List.range src.size).map
        (fun i => mkLit (dst.b + i) (!val (src.b + i))) := by
  unfold get_model VarRange.vars
  have haux : ∀ (l : List Nat), (∀ i ∈ l, i < src.size) →
      shift_literals src dst
        ((l.map (fun i => src.b + i)).map (fun v => mkLit v (!val v))) =
      l.map (fun i => mkLit (dst.b + i) (!val (src.b + i))) := by
    intro l
    induction l with
    | nil => intro _; rfl
    | cons x xs ih =>
      intro hmem
      have hx : x < src.size := hmem x (List.mem_cons_self _ _)
      have hxs : ∀ i ∈ xs, i < src.size := fun i hi => hmem i (List.mem_cons_of_mem _ hi)
      simp only [List.map_cons]
      unfold shift_literals at ih ⊢
      simp only [List.filterMap_cons]
      have hcont : src.containsV (lvar (mkLit (src.b + x) (!val (src.b + x)))) = true := by
        rw [lvar_mkLit]
        have hx' : x < src.e - src.b := hx
        unfold VarRange.containsV
        simp only [Bool.and_eq_true, decide_eq_true_eq]
        omega
      rw [if_pos hcont]
      rw [ih hxs]
      congr 1
      unfold shift_literal substituteLit VarRange.nth VarRange.offset
      rw [lvar_mkLit, lpos_mkLit _ _ (by omega)]
      have harith : dst.b + (src.b + x - src.b) = dst.b + x := by omega
      rw [harith]
  exact haux (List.range src.size) (fun i hi => List.mem_range.mp hi)

/-- C6: before the main loop, a satisfiable `Init ∧ Error` yields a
counterexample of exactly one input row; otherwise a satisfiable
`Init ∧ T(X, Y₁, X') ∧ Error(X', Y₂)` yields exactly two rows — the `Y₁`
model followed by the `Y₂` model, both laid over the input variables; only
when both queries are unsatisfiable does the main loop begin. -/
theorem c6_check_trivial_cases (L : Layout) (o : TrivialOracle)
    (mainLoop : Unit → Option (List (List Int)))
    (hbL : 1 ≤ L.leftInputVars.b) (hbR : 1 ≤ L.rightInputVars.b)
    (hszL : L.leftInputVars.size = L.inputVars.size)
    (hszR : L.rightInputVars.size = L.inputVars.size) :
    (o.sat0 = true →
      check_entry L o mainLoop = some [get_model o.val0 L.inputVars] ∧
      (get_model o.val0 L.inputVars).length = L.inputVars.size) ∧
    (o.sat0 = false → o.sat1 = true →
      ∃ r1 r2,
        check_entry L o mainLoop = some [r1, r2] ∧
        r1.length = L.inputVars.size ∧ r2.length = L.inputVars.size ∧
        r1 = (List.range L.inputVars.size).map
          (fun i => mkLit (L.inputVars.b + i) (!o.val1 (L.leftInputVars.b + i))) ∧
        r2 = (List.range L.inputVars.size).map
          (fun i => mkLit (L.inputVars.b + i) (!o.val1 (L.rightInputVars.b + i)))) ∧
    (o.sat0 = false → o.sat1 = false →
      check_trivial_cases L o = none ∧ check_entry L o mainLoop = mainLoop ()) := by
  refine ⟨?_, ?_, ?_⟩
  · intro h0
    constructor
    · unfold check_entry check_trivial_cases
      rw [h0]
      rfl
    · exact get_model_length o.val0 L.inputVars
  · intro h0 h1
    refine ⟨(List.range L.inputVars.size).map
        (fun i => mkLit (L.inputVars.b + i) (!o.val1 (L.leftInputVars.b + i))),
      (List.range L.inputVars.size).map
        (fun i => mkLit (L.inputVars.b + i) (!o.val1 (L.rightInputVars.b + i))),
      ?_, by simp, by simp, rfl, rfl⟩
    unfold check_entry check_trivial_cases
    rw [h0, h1]
    rw [shift_get_model _ _ _ hbL, shift_get_model _ _ _ hbR, hszL, hszR]
    rfl
  · intro h0 h1
    constructor
    · unfold check_trivial_cases
      rw [h0, h1]
      rfl
    · unfold check_entry check_trivial_cases
      rw [h0, h1]
      rfl

/-- C6 witness: both branches exercised at a concrete layout (one input
variable at id 7, right inputs at id 8). -/
theorem c6_check_trivial_cases_witness :
    (1 : Nat) ≤ 7 ∧ (1 : Nat) ≤ 8 ∧
    (check_entry ⟨⟨1, 3⟩, ⟨3, 5⟩, ⟨5, 7⟩, ⟨7, 8⟩, ⟨7, 8⟩, ⟨8, 9⟩⟩
        ⟨true, fun _ => true, false, fun _ => false⟩ (fun _ => none) =
      some [get_model (fun _ => true) ⟨7, 8⟩] ∧
    (get_model (fun _ => true) ⟨7, 8⟩).length = VarRange.size ⟨7, 8⟩) := by
  refine ⟨by omega, by omega, ?_⟩
  exact (c6_check_trivial_cases ⟨⟨1, 3⟩, ⟨3, 5⟩, ⟨5, 7⟩, ⟨7, 8⟩, ⟨7, 8⟩, ⟨8, 9⟩⟩
    ⟨true, fun _ => true, false, fun _ => false⟩ (fun _ => none)
    (by decide) (by decide) (by decide) (by decide)).1 rfl

/-! ## Claim C2 — `generalize_blocked_arrow` -/

/-- The merge scan `find_conflict_sorted` from the anonymous namespace of
the final `verifier.cpp`: walk two sorted simple literal vectors looking
for a pair of opposite literals, returning the literal of the first vector;
each step consumes one element, so `c.length + d.length` fuel always
suffices. -/
def fcGo : Nat → List Int → List Int → Option Int
  | 0, _, _ => none
  | _ + 1, [], _ => none
  | _ + 1, _ :: _, [] => none
  | fuel + 1, x :: c', y :: d' =>
    if x = lneg y then some x
    else if cube_literal_lt x (lneg y) then fcGo fuel c' (y :: d')
    else fcGo fuel (x :: c') d'

/-- `find_conflict_sorted(c, d)`. -/
def find_conflict_sorted (c d : List Int) : Option Int :=
  fcGo (c.length + d.length) c d

/-- `intersects_sorted(c, d)`: true when no conflicting pair exists. -/
def intersects_sorted (c d : List Int) : Bool :=
  !(find_conflict_sorted c d).isSome

/-- `insert_sorted(lits, lit)`: ordered insertion at the lower bound,
skipped when the literal is already present. -/
def insert_sorted : List Int → Int → List Int
  | [], l => [l]
  | x :: xs, l =>
    if cube_literal_lt x l then x :: insert_sorted xs l
    else if x = l then x :: xs
    else l :: x :: xs

/-- Oracle data consumed by one run of `generalize_blocked_arrow`: the
failed-assumption membership predicates behind the two `get_core` calls,
the models of the successive SAT answers of the concrete-edge closure loop
(`ss` = model over `X`, `tt` = the already-unprimed model over `X'`; the
list ending is the final UNSAT answer), and the Bernoulli coin stream. -/
structure GbaOracle where
  inCoreS : Int → Bool
  inCoreD : Int → Bool
  models : List (List Int × List Int)
  coin : Nat → Bool

/-- The closure loop of `generalize_blocked_arrow` (source lines
1443–1474): while the edge query is SAT, push the first conflicting
literal of `s` against the model and/or of `t` against the unprimed
next-state model, a coin choosing the side when both conflict; if neither
side conflicts, the debug assertion `d_conflict.has_value()` fails
(`none`). -/
def gbaLoop (s t : List Int) (coin : Nat → Bool) :
    List (List Int × List Int) → Nat → List Int → List Int →
    Option (List Int × List Int)
  | [], _, c, d => some (c, d)
  | (ss, tt) :: rest, k, c, d =>
    match find_conflict_sorted s ss, find_conflict_sorted t tt with
    | some x, some y =>
      if coin k then gbaLoop s t coin rest (k + 1) (c ++ [x]) d
      else gbaLoop s t coin rest (k + 1) c (d ++ [y])
    | some x, none => gbaLoop s t coin rest k (c ++ [x]) d
    | none, some y => gbaLoop s t coin rest k c (d ++ [y])
    | none, none => none

/-- The intersection repair of `generalize_blocked_arrow` (source lines
1425–1437): if the two cores do not conflict, the first literal on which
`s` and `t` disagree (whose existence is asserted) is added to `c` and its
negation to `d`. -/
def gba_repair (s t : Cube) (c0 d0 : List Int) : Option (List Int × List Int) :=
  if intersects_sorted c0 d0 then
    match find_conflict_sorted s.lits t.lits with
    | none => none
    | some diff => some (insert_sorted c0 diff, insert_sorted d0 (lneg diff))
  else
    some (c0, d0)

/-- The initial `c`: `get_core` over the literals of `s`. -/
def gba_core_c (o : GbaOracle) (s : Cube) : List Int :=
  get_core o.inCoreS s.lits

/-- The initial `d`: `get_core_mapped` over the literals of `t` primed. -/
def gba_core_d (L : Layout) (o : GbaOracle) (t : Cube) : List Int :=
  get_core_mapped o.inCoreD t.lits
    (fun l => shift_literal L.stateVars L.nextStateVars l)

/-- `verifier::generalize_blocked_arrow(s, t, level)` (final source, lines
1400–1493), the SAT solver abstracted by the oracle `o`: unsat-core
reduction, intersection repair, concrete-edge closure loop, final re-sort.
`none` models a failed debug assertion (in release builds, dereferencing an
empty `std::optional`, which is undefined behaviour).  The `level` argument
only feeds assertions in the source. -/
def generalize_blocked_arrow (L : Layout) (s t : Cube) (level : Nat)
    (o : GbaOracle) : Option (Cube × Cube) :=
  match gba_repair s t (gba_core_c o s) (gba_core_d L o t) with
  | none => none
  | some (c1, d1) =>
    match gbaLoop s.lits t.lits o.coin o.models 0 c1 d1 with
    | none => none
    | some (c2, d2) => some (Cube.sorted c2, Cube.sorted d2)

/-- C2 counterexample: for the state cubes `s = [x1]` and `t = [x1, x2]`
(distinct as literal sequences but conflicting on no variable) and cores
`c = [x1]`, `d = [x1]`, the intersection repair dereferences the absent
`find_conflict_sorted(s, t)` (a failed assertion / undefined behaviour),
so `generalize_blocked_arrow` returns no pair at all. -/
theorem c2_generalize_blocked_arrow_needs_conflict :
    (Cube.ofSorted [1]).lits ≠ (Cube.ofSorted [1, 2]).lits ∧
    generalize_blocked_arrow ⟨⟨1, 3⟩, ⟨3, 5⟩, ⟨5, 7⟩, ⟨7, 7⟩, ⟨7, 7⟩, ⟨7, 7⟩⟩
      (Cube.ofSorted [1]) (Cube.ofSorted [1, 2]) 1
      ⟨fun _ => true, fun _ => true, [], fun _ => true⟩ = none := by
  exact ⟨by decide, by decide⟩

theorem lneg_lneg (l : Int) : lneg (lneg l) = l := by
  simp [lneg]

theorem lvar_lneg (l : Int) : lvar (lneg l) = lvar l := by
  simp [lvar, lneg]

theorem lneg_eq_self_iff (l : Int) : lneg l = l ↔ l = sepLit := by
  unfold lneg sepLit
  omega

theorem cube_literal_lt_asymm {a b : Int} (h : cube_literal_lt a b = true) :
    cube_literal_lt b a = false := by
  rw [cube_literal_lt_iff] at h
  rw [Bool.eq_false_iff]
  intro hc
  rw [cube_literal_lt_iff] at hc
  unfold lvar at h hc
  omega

theorem cube_literal_lt_trans {a b c : Int} (h1 : cube_literal_lt a b = true)
    (h2 : cube_literal_lt b c = true) : cube_literal_lt a c = true := by
  rw [cube_literal_lt_iff] at h1 h2 ⊢
  unfold lvar at h1 h2 ⊢
  omega

theorem cube_literal_lt_of_incomp_ne {a b : Int}
    (h1 : cube_literal_lt a b = false) (h2 : a ≠ b) :
    cube_literal_lt b a = true := by
  rcases hb : cube_literal_lt b a with _ | _
  · exact absurd (eq_of_incomp h1 hb) h2
  · rfl

theorem fcGo_some :
    ∀ (fuel : Nat) (c d : List Int) (x : Int),
      fcGo fuel c d = some x → x ∈ c ∧ lneg x ∈ d := by
  intro fuel
  induction fuel with
  | zero => intro c d x h; exact absurd h (by simp [fcGo])
  | succ n ih =>
    intro c d x h
    match c, d with
    | [], _ => exact absurd h (by simp [fcGo])
    | _ :: _, [] => exact absurd h (by simp [fcGo])
    | a :: c', y :: d' =>
      rw [fcGo] at h
      by_cases heq : a = lneg y
      · rw [if_pos heq] at h
        obtain rfl : a = x := Option.some.inj h
        refine ⟨List.mem_cons_self _ _, ?_⟩
        rw [heq, lneg_lneg]
        exact List.mem_cons_self _ _
      · rw [if_neg heq] at h
        by_cases hlt : cube_literal_lt a (lneg y)
        · rw [if_pos hlt] at h
          obtain ⟨h1, h2⟩ := ih c' (y :: d') x h
          exact ⟨List.mem_cons_of_mem _ h1, h2⟩
        · rw [if_neg hlt] at h
          obtain ⟨h1, h2⟩ := ih (a :: c') d' x h
          exact ⟨h1, List.mem_cons_of_mem _ h2⟩

theorem find_conflict_sorted_some {c d : List Int} {x : Int}
    (h : find_conflict_sorted c d = some x) : x ∈ c ∧ lneg x ∈ d :=
  fcGo_some _ c d x h

theorem insert_sorted_mem (ls : List Int) (x a : Int) :
    a ∈ insert_sorted ls x ↔ a = x ∨ a ∈ ls := by
  induction ls with
  | nil => simp [insert_sorted]
  | cons y ys ih =>
    unfold insert_sorted
    by_cases hlt : cube_literal_lt y x
    · rw [if_pos hlt]
      simp only [List.mem_cons, ih]
      tauto
    · rw [if_neg hlt]
      by_cases heq : y = x
      · rw [if_pos heq]
        subst heq
        simp only [List.mem_cons]
        tauto
      · rw [if_neg heq]
        simp only [List.mem_cons]

theorem insert_sorted_self (ls : List Int) (x : Int) :
    x ∈ insert_sorted ls x :=
  (insert_sorted_mem ls x x).mpr (Or.inl rfl)

theorem insert_sorted_pairwise {ls : List Int} (x : Int)
    (h : ls.Pairwise (fun a b => cube_literal_lt a b = true)) :
    (insert_sorted ls x).Pairwise (fun a b => cube_literal_lt a b = true) := by
  induction ls with
  | nil => simp [insert_sorted]
  | cons y ys ih =>
    rw [List.pairwise_cons] at h
    obtain ⟨hy, hys⟩ := h
    by_cases hlt : cube_literal_lt y x
    · simp only [insert_sorted, hlt, if_true]
      rw [List.pairwise_cons]
      refine ⟨?_, ih hys⟩
      intro z hz
      rcases (insert_sorted_mem ys x z).mp hz with rfl | hzys
      · exact hlt
      · exact hy z hzys
    · simp only [insert_sorted, hlt, if_false, Bool.false_eq_true]
      by_cases heq : y = x
      · subst heq
        rw [if_pos rfl, List.pairwise_cons]
        exact ⟨hy, hys⟩
      · rw [if_neg heq]
        rw [List.pairwise_cons]
        have hxy : cube_literal_lt x y = true :=
          cube_literal_lt_of_incomp_ne (Bool.eq_false_iff.mpr hlt) heq
        refine ⟨?_, List.pairwise_cons.mpr ⟨hy, hys⟩⟩
        intro z hz
        rcases List.mem_cons.mp hz with rfl | hzys
        · exact hxy
        · exact cube_literal_lt_trans hxy (hy z hzys)

theorem pairwise_lt_nodup {ls : List Int}
    (h : ls.Pairwise (fun a b => cube_literal_lt a b = true)) : ls.Nodup := by
  refine h.imp ?_
  intro a b hab
  intro hc
  subst hc
  rw [cube_literal_lt_irrefl] at hab
  exact Bool.false_ne_true hab

/-- A literal vector with pairwise distinct variables (the shape of every
full model extracted over a variable range). -/
def simpleLits (ls : List Int) : Prop :=
  ls.Pairwise (fun a b => lvar a ≠ lvar b)

/-- The contract of the SAT solver during the closure loop of
`generalize_blocked_arrow`, mirrored on its recursion: each model extends
the literals assumed for it (the current `c` over `X`, and the current `d`
via priming over `X'`), assigns each variable once, and — because
`s ∧ T ∧ t'` was already refuted — never satisfies both `s` and `t`
outright (the source asserts `d_conflict.has_value()` there). -/
def GbaConsistent (s t : List Int) (coin : Nat → Bool) :
    List (List Int × List Int) → Nat → List Int → List Int → Prop
  | [], _, _, _ => True
  | (ss, tt) :: rest, k, c, d =>
    (∀ l ∈ c, l ∈ ss) ∧ simpleLits ss ∧
    (∀ l ∈ d, l ∈ tt) ∧ simpleLits tt ∧
    (match find_conflict_sorted s ss, find_conflict_sorted t tt with
     | some x, some y =>
       if coin k then GbaConsistent s t coin rest (k + 1) (c ++ [x]) d
       else GbaConsistent s t coin rest (k + 1) c (d ++ [y])
     | some x, none => GbaConsistent s t coin rest k (c ++ [x]) d
     | none, some y => GbaConsistent s t coin rest k c (d ++ [y])
     | none, none => False)

theorem push_not_mem {u ls m : List Int} {x : Int}
    (hx_u : x ∈ u) (hx0 : x ≠ sepLit) (hneg : lneg x ∈ m)
    (hsub : ∀ l ∈ ls, l ∈ m) (hsimple : simpleLits m) : x ∉ ls := by
  intro hmem
  have hxm : x ∈ m := hsub x hmem
  have hne : x ≠ lneg x := by
    intro hc
    exact hx0 ((lneg_eq_self_iff x).mp hc.symm)
  have hsym : Symmetric (fun a b : Int => lvar a ≠ lvar b) := by
    intro a b hab
    exact fun hc => hab hc.symm
  have := List.Pairwise.forall hsym hsimple hxm hneg hne
  exact this (lvar_lneg x).symm

theorem nodup_push {ls : List Int} {x : Int} (h : ls.Nodup) (hx : x ∉ ls) :
    (ls ++ [x]).Nodup := by
  rw [List.nodup_append]
  exact ⟨h, List.nodup_singleton x, List.disjoint_singleton.mpr hx⟩

theorem gbaLoop_props (s t : List Int) (coin : Nat → Bool)
    (hs0 : ∀ l ∈ s, l ≠ sepLit) (ht0 : ∀ l ∈ t, l ≠ sepLit) :
    ∀ (models : List (List Int × List Int)) (k : Nat) (c d : List Int),
      GbaConsistent s t coin models k c d →
      (∀ l ∈ c, l ∈ s) → (∀ l ∈ d, l ∈ t) → c.Nodup → d.Nodup →
      ∃ c2 d2, gbaLoop s t coin models k c d = some (c2, d2) ∧
        (∀ l ∈ c2, l ∈ s) ∧ (∀ l ∈ d2, l ∈ t) ∧ c2.Nodup ∧ d2.Nodup ∧
        (∀ l ∈ c, l ∈ c2) ∧ (∀ l ∈ d, l ∈ d2) := by
  intro models
  induction models with
  | nil =>
    intro k c d _ hcs hdt hcn hdn
    exact ⟨c, d, rfl, hcs, hdt, hcn, hdn, fun l h => h, fun l h => h⟩
  | cons m rest ih =>
    intro k c d hcons hcs hdt hcn hdn
    obtain ⟨ss, tt⟩ := m
    obtain ⟨hc_ss, hss, hd_tt, htt, hcont⟩ := hcons
    show ∃ c2 d2,
      (match find_conflict_sorted s ss, find_conflict_sorted t tt with
       | some x, some y =>
         if coin k then gbaLoop s t coin rest (k + 1) (c ++ [x]) d
         else gbaLoop s t coin rest (k + 1) c (d ++ [y])
       | some x, none => gbaLoop s t coin rest k (c ++ [x]) d
       | none, some y => gbaLoop s t coin rest k c (d ++ [y])
       | none, none => none) = some (c2, d2) ∧ _
    rcases hfc : find_conflict_sorted s ss with _ | x <;>
      rcases hfd : find_conflict_sorted t tt with _ | y <;>
      rw [hfc, hfd] at hcont
    · exact absurd hcont (by simp)
    · -- only the t side conflicts
      obtain ⟨hy_t, hny_tt⟩ := find_conflict_sorted_some hfd
      have hynotin : y ∉ d := push_not_mem hy_t (ht0 y hy_t) hny_tt hd_tt htt
      have hdt' : ∀ l ∈ d ++ [y], l ∈ t := by
        intro l hl
        rcases List.mem_append.mp hl with h | h
        · exact hdt l h
        · rw [List.mem_singleton.mp h]; exact hy_t
      obtain ⟨c2, d2, hrun, p1, p2, p3, p4, p5, p6⟩ :=
        ih k c (d ++ [y]) hcont hcs hdt' hcn (nodup_push hdn hynotin)
      refine ⟨c2, d2, hrun, p1, p2, p3, p4, p5, ?_⟩
      intro l hl
      exact p6 l (List.mem_append.mpr (Or.inl hl))
    · -- only the s side conflicts
      obtain ⟨hx_s, hnx_ss⟩ := find_conflict_sorted_some hfc
      have hxnotin : x ∉ c := push_not_mem hx_s (hs0 x hx_s) hnx_ss hc_ss hss
      have hcs' : ∀ l ∈ c ++ [x], l ∈ s := by
        intro l hl
        rcases List.mem_append.mp hl with h | h
        · exact hcs l h
        · rw [List.mem_singleton.mp h]; exact hx_s
      obtain ⟨c2, d2, hrun, p1, p2, p3, p4, p5, p6⟩ :=
        ih k (c ++ [x]) d hcont hcs' hdt (nodup_push hcn hxnotin) hdn
      refine ⟨c2, d2, hrun, p1, p2, p3, p4, ?_, p6⟩
      intro l hl
      exact p5 l (List.mem_append.mpr (Or.inl hl))
    · -- both sides conflict: the coin decides
      obtain ⟨hx_s, hnx_ss⟩ := find_conflict_sorted_some hfc
      obtain ⟨hy_t, hny_tt⟩ := find_conflict_sorted_some hfd
      by_cases hcoin : coin k
      · have hcont2 : (if coin k = true then
            GbaConsistent s t coin rest (k + 1) (c ++ [x]) d
          else GbaConsistent s t coin rest (k + 1) c (d ++ [y])) := hcont
        rw [if_pos hcoin] at hcont2
        show ∃ c2 d2,
          (if coin k = true then gbaLoop s t coin rest (k + 1) (c ++ [x]) d
           else gbaLoop s t coin rest (k + 1) c (d ++ [y])) = some (c2, d2) ∧
          (∀ l ∈ c2, l ∈ s) ∧ (∀ l ∈ d2, l ∈ t) ∧ c2.Nodup ∧ d2.Nodup ∧
          (∀ l ∈ c, l ∈ c2) ∧ (∀ l ∈ d, l ∈ d2)
        rw [if_pos hcoin]
        have hcont := hcont2
        have hxnotin : x ∉ c := push_not_mem hx_s (hs0 x hx_s) hnx_ss hc_ss hss
        have hcs' : ∀ l ∈ c ++ [x], l ∈ s := by
          intro l hl
          rcases List.mem_append.mp hl with h | h
          · exact hcs l h
          · rw [List.mem_singleton.mp h]; exact hx_s
        obtain ⟨c2, d2, hrun, p1, p2, p3, p4, p5, p6⟩ :=
          ih (k + 1) (c ++ [x]) d hcont hcs' hdt (nodup_push hcn hxnotin) hdn
        refine ⟨c2, d2, hrun, p1, p2, p3, p4, ?_, p6⟩
        intro l hl
        exact p5 l (List.mem_append.mpr (Or.inl hl))
      · have hcont2 : (if coin k = true then
            GbaConsistent s t coin rest (k + 1) (c ++ [x]) d
          else GbaConsistent s t coin rest (k + 1) c (d ++ [y])) := hcont
        rw [if_neg hcoin] at hcont2
        show ∃ c2 d2,
          (if coin k = true then gbaLoop s t coin rest (k + 1) (c ++ [x]) d
           else gbaLoop s t coin rest (k + 1) c (d ++ [y])) = some (c2, d2) ∧
          (∀ l ∈ c2, l ∈ s) ∧ (∀ l ∈ d2, l ∈ t) ∧ c2.Nodup ∧ d2.Nodup ∧
          (∀ l ∈ c, l ∈ c2) ∧ (∀ l ∈ d, l ∈ d2)
        rw [if_neg hcoin]
        have hcont := hcont2
        have hynotin : y ∉ d := push_not_mem hy_t (ht0 y hy_t) hny_tt hd_tt htt
        have hdt' : ∀ l ∈ d ++ [y], l ∈ t := by
          intro l hl
          rcases List.mem_append.mp hl with h | h
          · exact hdt l h
          · rw [List.mem_singleton.mp h]; exact hy_t
        obtain ⟨c2, d2, hrun, p1, p2, p3, p4, p5, p6⟩ :=
          ih (k + 1) c (d ++ [y]) hcont hcs hdt' hcn (nodup_push hdn hynotin)
        refine ⟨c2, d2, hrun, p1, p2, p3, p4, p5, ?_⟩
        intro l hl
        exact p6 l (List.mem_append.mpr (Or.inl hl))

theorem insLit_lits_sorted {ls : List Int} (l : Int)
    (h : lits_sorted ls = true) : lits_sorted (insLit l ls) = true := by
  induction ls with
  | nil => rfl
  | cons x xs ih =>
    by_cases hlt : cube_literal_lt x l
    · simp only [insLit, hlt, if_true]
      cases xs with
      | nil =>
        show (!cube_literal_lt l x && lits_sorted [l]) = true
        rw [cube_literal_lt_asymm hlt]
        rfl
      | cons y ys =>
        have hxy : cube_literal_lt y x = false := by
          have h2 := h
          unfold lits_sorted at h2
          rw [Bool.and_eq_true] at h2
          have h3 := h2.1
          cases hv : cube_literal_lt y x
          · rfl
          · rw [hv] at h3; exact absurd h3 (by decide)
        have hys : lits_sorted (y :: ys) = true := by
          have h2 := h
          unfold lits_sorted at h2
          rw [Bool.and_eq_true] at h2
          exact h2.2
        have hrec := ih hys
        by_cases hylt : cube_literal_lt y l
        · simp only [insLit, hylt, if_true] at hrec ⊢
          show (!cube_literal_lt y x && lits_sorted (y :: insLit l ys)) = true
          rw [hxy]
          simp only [Bool.not_false, Bool.true_and]
          simpa [insLit, hylt] using hrec
        · simp only [insLit, hylt, if_false, Bool.false_eq_true] at hrec ⊢
          show (!cube_literal_lt l x && lits_sorted (l :: y :: ys)) = true
          rw [cube_literal_lt_asymm hlt]
          simp only [Bool.not_false, Bool.true_and]
          show (!cube_literal_lt y l && lits_sorted (y :: ys)) = true
          rw [Bool.eq_false_iff.mpr hylt]
          simp only [Bool.not_false, Bool.true_and]
          exact hys
    · simp only [insLit, hlt, if_false, Bool.false_eq_true]
      show (!cube_literal_lt x l && lits_sorted (x :: xs)) = true
      rw [Bool.eq_false_iff.mpr hlt]
      simp only [Bool.not_false, Bool.true_and]
      exact h

theorem sort_literals_lits_sorted (ls : List Int) :
    lits_sorted (sort_literals ls) = true := by
  induction ls with
  | nil => rfl
  | cons x xs ih => exact insLit_lits_sorted x ih

/-- C2 (amended): whenever `s` and `t` disagree on some state variable (as
the full-assignment cubes handed to `generalize_blocked_arrow` always do
when `s ≠ t`) and the solver honours its contract during the closure loop,
`generalize_blocked_arrow(s, t, level)` returns sorted cubes `(c, d)` with
`c` a sub-multiset of `s`'s literals, `d` a sub-multiset of `t`'s
literals, and some variable occurring in `c` and `d` with opposite
polarities (so `c ∧ d` is unsatisfiable). -/
theorem c2_generalize_blocked_arrow (L : Layout) (s t : Cube) (level : Nat)
    (o : GbaOracle)
    (hs : s.lits.Pairwise (fun a b => cube_literal_lt a b = true))
    (ht : t.lits.Pairwise (fun a b => cube_literal_lt a b = true))
    (hs0 : ∀ l ∈ s.lits, l ≠ sepLit) (ht0 : ∀ l ∈ t.lits, l ≠ sepLit)
    (hconf : (find_conflict_sorted s.lits t.lits).isSome = true)
    (hcons : ∀ c1 d1,
      gba_repair s t (gba_core_c o s) (gba_core_d L o t) = some (c1, d1) →
      GbaConsistent s.lits t.lits o.coin o.models 0 c1 d1) :
    ∃ c d, generalize_blocked_arrow L s t level o = some (c, d) ∧
      lits_sorted c.lits = true ∧ lits_sorted d.lits = true ∧
      List.Subperm c.lits s.lits ∧ List.Subperm d.lits t.lits ∧
      ∃ l, l ∈ c.lits ∧ lneg l ∈ d.lits := by
  obtain ⟨diff, hdiff⟩ := Option.isSome_iff_exists.mp hconf
  obtain ⟨hdiff_s, hdiff_t⟩ := find_conflict_sorted_some hdiff
  have hc0p : (gba_core_c o s).Pairwise (fun a b => cube_literal_lt a b = true) :=
    List.Pairwise.filter _ hs
  have hd0p : (gba_core_d L o t).Pairwise (fun a b => cube_literal_lt a b = true) :=
    List.Pairwise.filter _ ht
  have hc0s : ∀ l ∈ gba_core_c o s, l ∈ s.lits :=
    fun l hl => List.mem_of_mem_filter hl
  have hd0t : ∀ l ∈ gba_core_d L o t, l ∈ t.lits :=
    fun l hl => List.mem_of_mem_filter hl
  have hrep : ∃ c1 d1,
      gba_repair s t (gba_core_c o s) (gba_core_d L o t) = some (c1, d1) ∧
      c1.Nodup ∧ d1.Nodup ∧
      (∀ l ∈ c1, l ∈ s.lits) ∧ (∀ l ∈ d1, l ∈ t.lits) ∧
      ∃ l, l ∈ c1 ∧ lneg l ∈ d1 := by
    unfold gba_repair
    by_cases hint : intersects_sorted (gba_core_c o s) (gba_core_d L o t)
    · rw [if_pos hint, hdiff]
      refine ⟨_, _, rfl, ?_, ?_, ?_, ?_, diff, insert_sorted_self _ _,
        insert_sorted_self _ _⟩
      · exact pairwise_lt_nodup (insert_sorted_pairwise diff hc0p)
      · exact pairwise_lt_nodup (insert_sorted_pairwise (lneg diff) hd0p)
      · intro l hl
        rcases (insert_sorted_mem _ _ _).mp hl with rfl | h
        · exact hdiff_s
        · exact hc0s l h
      · intro l hl
        rcases (insert_sorted_mem _ _ _).mp hl with rfl | h
        · exact hdiff_t
        · exact hd0t l h
    · rw [if_neg hint]
      have hfc : (find_conflict_sorted (gba_core_c o s) (gba_core_d L o t)).isSome = true := by
        unfold intersects_sorted at hint
        have hne : find_conflict_sorted (gba_core_c o s) (gba_core_d L o t) ≠ none := by
          simpa using hint
        exact Option.isSome_iff_ne_none.mpr hne
      obtain ⟨x, hx⟩ := Option.isSome_iff_exists.mp hfc
      obtain ⟨hx_c, hx_d⟩ := find_conflict_sorted_some hx
      exact ⟨_, _, rfl, pairwise_lt_nodup hc0p, pairwise_lt_nodup hd0p,
        hc0s, hd0t, x, hx_c, hx_d⟩
  obtain ⟨c1, d1, hrepeq, hc1n, hd1n, hc1s, hd1t, w, hwc, hwd⟩ := hrep
  obtain ⟨c2, d2, hloop, hc2s, hd2t, hc2n, hd2n, hcc, hdd⟩ :=
    gbaLoop_props s.lits t.lits o.coin hs0 ht0 o.models 0 c1 d1
      (hcons c1 d1 hrepeq) hc1s hd1t hc1n hd1n
  refine ⟨Cube.sorted c2, Cube.sorted d2, ?_, ?_, ?_, ?_, ?_, w, ?_, ?_⟩
  · simp only [generalize_blocked_arrow, hrepeq, hloop]
  · exact sort_literals_lits_sorted c2
  · exact sort_literals_lits_sorted d2
  · refine List.Nodup.subperm ?_ ?_
    · exact ((sort_literals_perm c2).nodup_iff).mpr hc2n
    · intro a ha
      exact hc2s a (mem_sort_literals.mp ha)
  · refine List.Nodup.subperm ?_ ?_
    · exact ((sort_literals_perm d2).nodup_iff).mpr hd2n
    · intro a ha
      exact hd2t a (mem_sort_literals.mp ha)
  · exact mem_sort_literals.mpr (hcc w hwc)
  · exact mem_sort_literals.mpr (hdd (lneg w) hwd)

/-- C2 witness: the amended theorem at `s = [x1]`, `t = [¬x1]` with full
cores and no SAT answers in the closure loop. -/
theorem c2_generalize_blocked_arrow_witness :
    ∃ c d,
      generalize_blocked_arrow ⟨⟨1, 3⟩, ⟨3, 5⟩, ⟨5, 7⟩, ⟨7, 7⟩, ⟨7, 7⟩, ⟨7, 7⟩⟩
        (Cube.ofSorted [1]) (Cube.ofSorted [-1]) 1
        ⟨fun _ => true, fun _ => true, [], fun _ => true⟩ = some (c, d) ∧
      lits_sorted c.lits = true ∧ lits_sorted d.lits = true ∧
      List.Subperm c.lits (Cube.ofSorted [1]).lits ∧
      List.Subperm d.lits (Cube.ofSorted [-1]).lits ∧
      ∃ l, l ∈ c.lits ∧ lneg l ∈ d.lits := by
  exact c2_generalize_blocked_arrow
    ⟨⟨1, 3⟩, ⟨3, 5⟩, ⟨5, 7⟩, ⟨7, 7⟩, ⟨7, 7⟩, ⟨7, 7⟩⟩
    (Cube.ofSorted [1]) (Cube.ofSorted [-1]) 1
    ⟨fun _ => true, fun _ => true, [], fun _ => true⟩
    (by decide) (by decide) (by decide) (by decide) (by decide)
    (fun c1 d1 _ => trivial)

/-! ## Claims C5 and C7 — `solve_obligation` and the cex-pool invariant -/

/-- One SAT answer consumed during `solve_obligation`: the concrete-edge
query of `has_concrete_edge` (on SAT, the model restricted to the input
variables), the doubled-step query of `split_path` (on SAT, the uncircled
middle-state model plus the two input models already shifted to the input
range — the latter two are only read at level 1), or the oracle bundle of
one `generalize_blocked_arrow` call. -/
inductive QAns where
  | edge : Option Cube → QAns
  | split : Option (Cube × Cube × Cube) → QAns
  | gans : GbaOracle → QAns

/-- The verifier state touched by `solve_obligation`: the cex-node pool
(`_cexes`, handles are indices) and the frame stack (`_blocked_arrows`). -/
structure VState where
  pool : List CexEntry
  frames : List Frame

/-- `verifier::get_error_cex` (final source, lines 1230–1244), SAT case:
the root node is created from the three models of the error query — in
particular its `input_vars` field is set at creation. -/
def get_error_cex_entry (sm tm im : Cube) : CexEntry :=
  { s := sm, t := tm, inputs := some im, left := none, right := none }

/-- `verifier::split_path` (final source, lines 1324–1372), the solver
abstracted by the answer `ans`: on SAT, two fresh children are appended to
the pool (left before right, input cubes attached only at level 1) and the
parent's child handles are overwritten. -/
def split_path (pool : List CexEntry) (h : Nat)
    (ans : Option (Cube × Cube × Cube)) (level : Nat) :
    Option (Nat × Nat × List CexEntry) :=
  match ans with
  | none => none
  | some (u, li, ri) =>
    match pool[h]? with
    | none => none
    | some e =>
      let lh := pool.length
      let rh := pool.length + 1
      let pool2 := pool ++
        [{ s := e.s, t := u,
           inputs := if level = 1 then some li else none,
           left := none, right := none },
         { s := u, t := e.t,
           inputs := if level = 1 then some ri else none,
           left := none, right := none }]
      some (lh, rh, pool2.set h { e with left := some lh, right := some rh })

/-- The `generalize_blocked_arrow` + `block_arrow_at(c, d, po.level())`
tail of `solve_obligation` (final source, lines 1293–1300); `none` is the
failed debug assertion inside `generalize_blocked_arrow`. -/
def gblock (L : Layout) (activators : List Nat) (e : CexEntry) (level : Nat)
    (o : GbaOracle) (st : VState) : Option VState :=
  match generalize_blocked_arrow L e.s e.t level o with
  | none => none
  | some (c, d) =>
    some { st with
           frames := (block_arrow_at L activators st.frames c d level 1).frames }

/-- `verifier::solve_obligation` (final source, lines 1248–1301), fuelled
and driven by the answer tape.  Mode `true` is `solve_obligation` itself:
the `s == t` check, then `has_concrete_edge` (setting the node's inputs on
SAT), then the level-0 early false, the level-1 `has_path_of_length_two`,
or the hand-off to the level-≥-2 `while` loop; mode `false` is that loop:
`split_obligation`, recursion into the left then (short-circuit) right
child at level − 1, retry on failure, and on an UNSAT split the
generalize-and-block tail.  `none` is fuel exhaustion or a tape mismatch,
never produced by the faithful runs considered below. -/
def sOgo (L : Layout) (activators : List Nat) :
    Nat → Bool → Nat → Nat → VState → List QAns →
    Option (Bool × VState × List QAns)
  | 0, _, _, _, _, _ => none
  | fuel + 1, true, level, h, st, tape =>
    match st.pool[h]? with
    | none => none
    | some e =>
      if e.s.lits = e.t.lits then some (true, st, tape)
      else
        match tape with
        | QAns.edge (some inp) :: tape1 =>
          some (true,
            { st with pool := st.pool.set h { e with inputs := some inp } },
            tape1)
        | QAns.edge none :: tape1 =>
          match level with
          | 0 => some (false, st, tape1)
          | 1 =>
            match tape1 with
            | QAns.split sans :: tape2 =>
              match split_path st.pool h sans 1 with
              | some (_, _, pool2) =>
                some (true, { st with pool := pool2 }, tape2)
              | none =>
                match tape2 with
                | QAns.gans o :: tape3 =>
                  match gblock L activators e 1 o st with
                  | none => none
                  | some st2 => some (false, st2, tape3)
                | _ => none
            | _ => none
          | lv + 2 => sOgo L activators fuel false (lv + 2) h st tape1
        | _ => none
  | fuel + 1, false, level, h, st, tape =>
    match st.pool[h]? with
    | none => none
    | some e =>
      match tape with
      | QAns.split sans :: tape1 =>
        match split_path st.pool h sans level with
        | none =>
          match tape1 with
          | QAns.gans o :: tape2 =>
            match gblock L activators e level o st with
            | none => none
            | some st2 => some (false, st2, tape2)
          | _ => none
        | some (lh, rh, pool2) =>
          match sOgo L activators fuel true (level - 1) lh
              { st with pool := pool2 } tape1 with
          | none => none
          | some (bl, st1, tape2) =>
            match bl with
            | true =>
              match sOgo L activators fuel true (level - 1) rh st1 tape2 with
              | none => none
              | some (br, st2, tape3) =>
                match br with
                | true => some (true, st2, tape3)
                | false => sOgo L activators fuel false level h st2 tape3
            | false => sOgo L activators fuel false level h st1 tape2
      | _ => none

/-- `solve_obligation(po)` for an obligation on handle `h` at `level`. -/
def solve_obligation (L : Layout) (activators : List Nat) (fuel : Nat)
    (level h : Nat) (st : VState) (tape : List QAns) :
    Option (Bool × VState × List QAns) :=
  sOgo L activators fuel true level h st tape

/-- The per-node shape invariant claimed by the spec for cex nodes: not
both an input cube and children, and the two child handles set together. -/
def cexNodeOk (e : CexEntry) : Bool :=
  (!(e.inputs.isSome && e.left.isSome)) && (e.left.isSome == e.right.isSome)

/-- Every pool node except the root satisfies `cexNodeOk`. -/
def poolOk (root : Nat) (pool : List CexEntry) : Prop :=
  ∀ i, i < pool.length → i ≠ root → cexNodeOk (pool.getD i default) = true

instance (root : Nat) (pool : List CexEntry) : Decidable (poolOk root pool) := by
  unfold poolOk
  infer_instance

theorem getElem?_some_lt {α : Type} {l : List α} {i : Nat} {x : α}
    (h : l[i]? = some x) : i < l.length := by
  by_contra hge
  rw [List.getElem?_eq_none (by omega)] at h
  cases h

theorem getD_of_getElem? {α : Type} [Inhabited α] {l : List α} {i : Nat}
    {x : α} (h : l[i]? = some x) : l.getD i default = x := by
  rw [List.getD_eq_getElem?_getD, h]
  rfl

theorem append2_set_length {α : Type} (pool : List α) (h : Nat) (a b e2 : α) :
    ((pool ++ [a, b]).set h e2).length = pool.length + 2 := by
  simp [List.length_set, List.length_append]

theorem append2_set_getElem?_lt {α : Type} {pool : List α} {h i : Nat}
    (hih : i ≠ h) (hi : i < pool.length) (a b e2 : α) :
    ((pool ++ [a, b]).set h e2)[i]? = pool[i]? := by
  rw [List.getElem?_set_ne (fun hx => hih hx.symm)]
  exact List.getElem?_append_left hi

theorem append2_set_getD_self {pool : List CexEntry} {h : Nat}
    (hh : h < pool.length) (a b e2 : CexEntry) :
    ((pool ++ [a, b]).set h e2).getD h default = e2 :=
  getD_set_self _ _ _ _ (by simp [List.length_append]; omega)

theorem append2_set_getD_mid {pool : List CexEntry} {h : Nat}
    (hh : h < pool.length) (a b e2 : CexEntry) :
    ((pool ++ [a, b]).set h e2).getD pool.length default = a := by
  rw [getD_set_other _ _ _ _ _ (by omega)]
  rw [List.getD_eq_getElem?_getD, List.getElem?_append_right (le_refl _)]
  simp

theorem append2_set_getD_last {pool : List CexEntry} {h : Nat}
    (hh : h < pool.length) (a b e2 : CexEntry) :
    ((pool ++ [a, b]).set h e2).getD (pool.length + 1) default = b := by
  rw [getD_set_other _ _ _ _ _ (by omega)]
  rw [List.getD_eq_getElem?_getD, List.getElem?_append_right (by omega)]
  simp

theorem gblock_pool {L : Layout} {activators : List Nat} {e : CexEntry}
    {level : Nat} {o : GbaOracle} {st st2 : VState}
    (h : gblock L activators e level o st = some st2) : st2.pool = st.pool := by
  unfold gblock at h
  rcases hg : generalize_blocked_arrow L e.s e.t level o with _ | ⟨c, d⟩ <;>
    rw [hg] at h
  · exact Option.noConfusion h
  · replace h : some ({ st with
        frames := (block_arrow_at L activators st.frames c d level 1).frames } :
        VState) = some st2 := h
    injection h with h2
    rw [← h2]

/-- C5 counterexample: the root node is created by `get_error_cex` already
holding an input cube, and a level-1 `solve_obligation` on it that falls
through to a satisfiable `has_path_of_length_two` attaches both children to
it — the resulting pool node holds an input cube and both child handles at
once, violating the claimed exactly-one invariant. -/
theorem c5_root_holds_inputs_and_children :
    ∃ st' tape',
      solve_obligation ⟨⟨1, 3⟩, ⟨3, 5⟩, ⟨5, 7⟩, ⟨7, 7⟩, ⟨7, 7⟩, ⟨7, 7⟩⟩ [] 2 1 0
        ⟨[get_error_cex_entry (Cube.ofSorted [1]) (Cube.ofSorted [-1])
            (Cube.ofSorted [5])], []⟩
        [QAns.edge none,
         QAns.split (some (Cube.ofSorted [1], Cube.ofSorted [5],
           Cube.ofSorted [5]))] = some (true, st', tape') ∧
      (st'.pool.getD 0 default).inputs.isSome = true ∧
      (st'.pool.getD 0 default).left.isSome = true ∧
      (st'.pool.getD 0 default).right.isSome = true :=
  ⟨_, _, rfl, rfl, rfl, rfl⟩

/-- C5 (amended): along every `solve_obligation` run (either mode), if
every non-root pool node satisfies the shape invariant — never both an
input cube and children, and the two child handles set in pairs — and the
obligation's own node is fresh (outer mode) or at least input-free (loop
mode) whenever it is not the root, then afterwards every non-root node
still satisfies the invariant, the pool has only grown, and every pool
entry other than the obligation's own is unchanged.  The root itself is
exempt: `get_error_cex` creates it with an input cube and `split_path`
later attaches children to it, so the claimed exactly-one property fails
for the root but holds for all other nodes. -/
theorem c5_cex_pool_invariant (L : Layout) (activators : List Nat)
    (root : Nat) :
    ∀ (fuel : Nat) (mode : Bool) (level h : Nat) (st : VState)
      (tape : List QAns) (b : Bool) (st' : VState) (tape' : List QAns),
      sOgo L activators fuel mode level h st tape = some (b, st', tape') →
      root < st.pool.length →
      poolOk root st.pool →
      (mode = true → h ≠ root →
        (st.pool.getD h default).inputs = none ∧
        (st.pool.getD h default).left = none ∧
        (st.pool.getD h default).right = none) →
      (mode = false → h ≠ root → (st.pool.getD h default).inputs = none) →
      (mode = false → 2 ≤ level) →
      poolOk root st'.pool ∧
      st.pool.length ≤ st'.pool.length ∧
      (∀ i, i < st.pool.length → i ≠ h → st'.pool[i]? = st.pool[i]?) := by
  intro fuel
  induction fuel with
  | zero =>
    intro mode level h st tape b st' tape' hrun hroot hok hpre1 hpre2 hlev
    exact Option.noConfusion hrun
  | succ fuel ih =>
    intro mode level h st tape b st' tape' hrun hroot hok hpre1 hpre2 hlev
    cases mode with
    | true =>
      rcases hpe : st.pool[h]? with _ | e
      · simp only [sOgo, hpe] at hrun
        exact Option.noConfusion hrun
      · simp only [sOgo, hpe] at hrun
        have hlt : h < st.pool.length := getElem?_some_lt hpe
        have hge : st.pool.getD h default = e := getD_of_getElem? hpe
        by_cases hst : e.s.lits = e.t.lits
        · rw [if_pos hst] at hrun
          rw [Option.some.injEq, Prod.mk.injEq, Prod.mk.injEq] at hrun
          obtain ⟨hb, hsteq, htp⟩ := hrun
          subst hsteq
          exact ⟨hok, le_refl _, fun i _ _ => rfl⟩
        · rw [if_neg hst] at hrun
          cases tape with
          | nil => exact Option.noConfusion hrun
          | cons q tape1 =>
            cases q with
            | split sa => exact Option.noConfusion hrun
            | gans o => exact Option.noConfusion hrun
            | edge ans =>
              cases ans with
              | some inp =>
                dsimp only [] at hrun
                rw [Option.some.injEq, Prod.mk.injEq, Prod.mk.injEq] at hrun
                obtain ⟨hb, hsteq, htp⟩ := hrun
                subst hsteq
                refine ⟨?_, ?_, ?_⟩
                · intro i hi hir
                  replace hi : i < (st.pool.set h
                      { e with inputs := some inp }).length := hi
                  rw [List.length_set] at hi
                  show cexNodeOk ((st.pool.set h
                    { e with inputs := some inp }).getD i default) = true
                  by_cases hih : i = h
                  · subst hih
                    rw [getD_set_self _ _ _ _ hlt]
                    obtain ⟨hInp, hL, hR⟩ := hpre1 rfl hir
                    rw [hge] at hL hR
                    simp [cexNodeOk, hL, hR]
                  · rw [getD_set_other _ _ _ _ _ hih]
                    exact hok i hi hir
                · show st.pool.length ≤
                    (st.pool.set h { e with inputs := some inp }).length
                  rw [List.length_set]
                · intro i hi hih
                  exact List.getElem?_set_ne (fun hx => hih hx.symm)
              | none =>
                dsimp only [] at hrun
                rcases level with _ | level1
                · dsimp only [] at hrun
                  rw [Option.some.injEq, Prod.mk.injEq, Prod.mk.injEq] at hrun
                  obtain ⟨hb, hsteq, htp⟩ := hrun
                  subst hsteq
                  exact ⟨hok, le_refl _, fun i _ _ => rfl⟩
                rcases level1 with _ | level2
                · -- level 1: has_path_of_length_two
                  dsimp only [] at hrun
                  cases tape1 with
                  | nil => exact Option.noConfusion hrun
                  | cons q2 tape2 =>
                    cases q2 with
                    | edge a => exact Option.noConfusion hrun
                    | gans o => exact Option.noConfusion hrun
                    | split sans =>
                      dsimp only [] at hrun
                      rcases hspv : split_path st.pool h sans 1 with
                          _ | ⟨lh, rh, pool2⟩ <;> rw [hspv] at hrun <;>
                        dsimp only [] at hrun
                      · cases tape2 with
                        | nil => exact Option.noConfusion hrun
                        | cons q3 tape3 =>
                          cases q3 with
                          | edge a => exact Option.noConfusion hrun
                          | split s2 => exact Option.noConfusion hrun
                          | gans o =>
                            dsimp only [] at hrun
                            rcases hgb : gblock L activators e 1 o st with
                                _ | st2 <;> rw [hgb] at hrun <;>
                              dsimp only [] at hrun
                            · exact Option.noConfusion hrun
                            · rw [Option.some.injEq, Prod.mk.injEq,
                                Prod.mk.injEq] at hrun
                              obtain ⟨hb, hsteq, htp⟩ := hrun
                              subst hsteq
                              rw [gblock_pool hgb]
                              exact ⟨hok, le_refl _, fun i _ _ => rfl⟩
                      · rcases sans with _ | ⟨u, li, ri⟩
                        · exact Option.noConfusion hspv
                        · have hsp0 : split_path st.pool h
                              (some (u, li, ri)) 1 =
                              some (st.pool.length, st.pool.length + 1,
                                ((st.pool ++
                                  ([⟨e.s, u, some li, none, none⟩,
                                    ⟨u, e.t, some ri, none, none⟩] :
                                    List CexEntry)).set h
                                  { e with left := some st.pool.length, right := some (st.pool.length + 1) })) := by
                            simp only [split_path, hpe, if_true]
                          rw [hsp0] at hspv
                          rw [Option.some.injEq, Prod.mk.injEq,
                            Prod.mk.injEq] at hspv
                          obtain ⟨hlh, hrh, hp2⟩ := hspv
                          rw [Option.some.injEq, Prod.mk.injEq,
                            Prod.mk.injEq] at hrun
                          obtain ⟨hb, hsteq, htp⟩ := hrun
                          subst hsteq
                          have hlen2 : pool2.length = st.pool.length + 2 := by
                            rw [← hp2]; exact append2_set_length _ _ _ _ _
                          have hpool2_h : pool2.getD h default =
                              { e with left := some st.pool.length, right := some (st.pool.length + 1) } := by
                            rw [← hp2]; exact append2_set_getD_self hlt _ _ _
                          have hpool2_lh : pool2.getD st.pool.length default =
                              ⟨e.s, u, some li, none, none⟩ := by
                            rw [← hp2]; exact append2_set_getD_mid hlt _ _ _
                          have hpool2_rh :
                              pool2.getD (st.pool.length + 1) default =
                              ⟨u, e.t, some ri, none, none⟩ := by
                            rw [← hp2]; exact append2_set_getD_last hlt _ _ _
                          have hpool2_lt : ∀ i, i < st.pool.length → i ≠ h →
                              pool2[i]? = st.pool[i]? := fun i hi hih => by
                            rw [← hp2]
                            exact append2_set_getElem?_lt hih hi _ _ _
                          refine ⟨?_, ?_, ?_⟩
                          · intro i hi hir
                            replace hi : i < pool2.length := hi
                            rw [hlen2] at hi
                            show cexNodeOk (pool2.getD i default) = true
                            have hcase : i = h ∨
                                (i < st.pool.length ∧ i ≠ h) ∨
                                i = st.pool.length ∨
                                i = st.pool.length + 1 := by omega
                            rcases hcase with rfl | ⟨hi2, hih⟩ | rfl | rfl
                            · rw [hpool2_h]
                              obtain ⟨hInp, hL, hR⟩ := hpre1 rfl hir
                              rw [hge] at hInp
                              simp [cexNodeOk, hInp]
                            · rw [List.getD_eq_getElem?_getD,
                                hpool2_lt i hi2 hih,
                                ← List.getD_eq_getElem?_getD]
                              exact hok i hi2 hir
                            · rw [hpool2_lh]; rfl
                            · rw [hpool2_rh]; rfl
                          · show st.pool.length ≤ pool2.length
                            omega
                          · intro i hi hih
                            exact hpool2_lt i hi hih
                · dsimp only [] at hrun
                  exact ih false (level2 + 1 + 1) h st tape1 b st' tape' hrun
                    hroot hok (fun hmt => nomatch hmt)
                    (fun _ hne => (hpre1 rfl hne).1) (fun _ => by omega)
    | false =>
      have hlev2 : 2 ≤ level := hlev rfl
      rcases hpe : st.pool[h]? with _ | e
      · simp only [sOgo, hpe] at hrun
        exact Option.noConfusion hrun
      · simp only [sOgo, hpe] at hrun
        have hlt : h < st.pool.length := getElem?_some_lt hpe
        have hge : st.pool.getD h default = e := getD_of_getElem? hpe
        cases tape with
        | nil => exact Option.noConfusion hrun
        | cons q tape1 =>
          cases q with
          | edge a => exact Option.noConfusion hrun
          | gans o => exact Option.noConfusion hrun
          | split sans =>
            dsimp only [] at hrun
            rcases hspv : split_path st.pool h sans level with
                _ | ⟨lh, rh, pool2⟩ <;> rw [hspv] at hrun <;>
              dsimp only [] at hrun
            · cases tape1 with
              | nil => exact Option.noConfusion hrun
              | cons q2 tape2 =>
                cases q2 with
                | edge a => exact Option.noConfusion hrun
                | split s2 => exact Option.noConfusion hrun
                | gans o =>
                  dsimp only [] at hrun
                  rcases hgb : gblock L activators e level o st with
                      _ | st2 <;> rw [hgb] at hrun <;> dsimp only [] at hrun
                  · exact Option.noConfusion hrun
                  · rw [Option.some.injEq, Prod.mk.injEq,
                      Prod.mk.injEq] at hrun
                    obtain ⟨hb, hsteq, htp⟩ := hrun
                    subst hsteq
                    rw [gblock_pool hgb]
                    exact ⟨hok, le_refl _, fun i _ _ => rfl⟩
            · rcases sans with _ | ⟨u, li, ri⟩
              · exact Option.noConfusion hspv
              · have hl1 : level ≠ 1 := by omega
                have hsp0 : split_path st.pool h (some (u, li, ri)) level =
                    some (st.pool.length, st.pool.length + 1,
                      ((st.pool ++
                        ([⟨e.s, u, if level = 1 then some li else none,
                            none, none⟩,
                          ⟨u, e.t, if level = 1 then some ri else none,
                            none, none⟩] : List CexEntry)).set h
                        { e with left := some st.pool.length, right := some (st.pool.length + 1) })) := by
                  simp only [split_path, hpe]
                simp only [if_neg hl1] at hsp0
                rw [hsp0] at hspv
                rw [Option.some.injEq, Prod.mk.injEq, Prod.mk.injEq] at hspv
                obtain ⟨hlh, hrh, hp2⟩ := hspv
                subst hlh
                subst hrh
                have hlen2 : pool2.length = st.pool.length + 2 := by
                  rw [← hp2]; exact append2_set_length _ _ _ _ _
                have hpool2_h : pool2.getD h default =
                    { e with left := some st.pool.length, right := some (st.pool.length + 1) } := by
                  rw [← hp2]; exact append2_set_getD_self hlt _ _ _
                have hpool2_lh : pool2.getD st.pool.length default =
                    ⟨e.s, u, none, none, none⟩ := by
                  rw [← hp2]; exact append2_set_getD_mid hlt _ _ _
                have hpool2_rh : pool2.getD (st.pool.length + 1) default =
                    ⟨u, e.t, none, none, none⟩ := by
                  rw [← hp2]; exact append2_set_getD_last hlt _ _ _
                have hpool2_lt : ∀ i, i < st.pool.length → i ≠ h →
                    pool2[i]? = st.pool[i]? := fun i hi hih => by
                  rw [← hp2]
                  exact append2_set_getElem?_lt hih hi _ _ _
                have hEinp : h ≠ root → e.inputs = none := fun hne => by
                  have hx := hpre2 rfl hne
                  rwa [hge] at hx
                have hok2 : poolOk root pool2 := by
                  intro i hi hir
                  rw [hlen2] at hi
                  have hcase : i = h ∨ (i < st.pool.length ∧ i ≠ h) ∨
                      i = st.pool.length ∨ i = st.pool.length + 1 := by omega
                  rcases hcase with rfl | ⟨hi2, hih⟩ | rfl | rfl
                  · rw [hpool2_h]
                    simp [cexNodeOk, hEinp hir]
                  · rw [List.getD_eq_getElem?_getD, hpool2_lt i hi2 hih,
                      ← List.getD_eq_getElem?_getD]
                    exact hok i hi2 hir
                  · rw [hpool2_lh]; rfl
                  · rw [hpool2_rh]; rfl
                rcases hrecl : sOgo L activators fuel true (level - 1)
                    st.pool.length { st with pool := pool2 } tape1 with
                    _ | ⟨bl, st1, tape2⟩ <;> rw [hrecl] at hrun <;>
                  dsimp only [] at hrun
                · exact Option.noConfusion hrun
                · obtain ⟨hokA, hlenA, hpresA⟩ := ih true (level - 1)
                    st.pool.length { st with pool := pool2 } tape1 bl st1
                    tape2 hrecl (by show root < pool2.length; omega) hok2
                    (fun _ _ => by rw [hpool2_lh]; exact ⟨rfl, rfl, rfl⟩)
                    (fun hmf => nomatch hmf) (fun hmf => nomatch hmf)
                  replace hlenA : pool2.length ≤ st1.pool.length := hlenA
                  replace hpresA : ∀ i, i < pool2.length →
                      i ≠ st.pool.length → st1.pool[i]? = pool2[i]? := hpresA
                  have hst1_h : h ≠ root →
                      (st1.pool.getD h default).inputs = none := fun hne => by
                    rw [List.getD_eq_getElem?_getD,
                      hpresA h (by omega) (by omega),
                      ← List.getD_eq_getElem?_getD, hpool2_h]
                    show e.inputs = none
                    exact hEinp hne
                  cases bl with
                  | false =>
                    dsimp only [] at hrun
                    obtain ⟨hokB, hlenB, hpresB⟩ := ih false level h st1
                      tape2 b st' tape' hrun (by omega) hokA
                      (fun hmt => nomatch hmt) (fun _ hne => hst1_h hne)
                      (fun _ => hlev2)
                    refine ⟨hokB, by omega, ?_⟩
                    intro i hi hih
                    rw [hpresB i (by omega) hih,
                      hpresA i (by omega) (by omega), hpool2_lt i hi hih]
                  | true =>
                    dsimp only [] at hrun
                    rcases hrecr : sOgo L activators fuel true (level - 1)
                        (st.pool.length + 1) st1 tape2 with
                        _ | ⟨br, st2, tape3⟩ <;> rw [hrecr] at hrun <;>
                      dsimp only [] at hrun
                    · exact Option.noConfusion hrun
                    · obtain ⟨hokB, hlenB, hpresB⟩ := ih true (level - 1)
                        (st.pool.length + 1) st1 tape2 br st2 tape3 hrecr
                        (by omega) hokA
                        (fun _ _ => by
                          rw [List.getD_eq_getElem?_getD,
                            hpresA (st.pool.length + 1) (by omega) (by omega),
                            ← List.getD_eq_getElem?_getD, hpool2_rh]
                          exact ⟨rfl, rfl, rfl⟩)
                        (fun hmf => nomatch hmf) (fun hmf => nomatch hmf)
                      cases br with
                      | true =>
                        dsimp only [] at hrun
                        rw [Option.some.injEq, Prod.mk.injEq,
                          Prod.mk.injEq] at hrun
                        obtain ⟨hb, hsteq, htp⟩ := hrun
                        subst hsteq
                        refine ⟨hokB, by omega, ?_⟩
                        intro i hi hih
                        rw [hpresB i (by omega) (by omega),
                          hpresA i (by omega) (by omega),
                          hpool2_lt i hi hih]
                      | false =>
                        dsimp only [] at hrun
                        obtain ⟨hokC, hlenC, hpresC⟩ := ih false level h st2
                          tape3 b st' tape' hrun (by omega) hokB
                          (fun hmt => nomatch hmt)
                          (fun _ hne => by
                            rw [List.getD_eq_getElem?_getD,
                              hpresB h (by omega) (by omega),
                              ← List.getD_eq_getElem?_getD]
                            exact hst1_h hne)
                          (fun _ => hlev2)
                        refine ⟨hokC, by omega, ?_⟩
                        intro i hi hih
                        rw [hpresC i (by omega) hih,
                          hpresB i (by omega) (by omega),
                          hpresA i (by omega) (by omega),
                          hpool2_lt i hi hih]

/-- Concrete one-node pool used by the invariant witness: a root obligation
whose source and target cubes coincide. -/
def c5wSt : VState :=
  ⟨[⟨Cube.ofSorted [1], Cube.ofSorted [1], none, none, none⟩], []⟩

theorem c5_cex_pool_invariant_witness :
    poolOk 0 c5wSt.pool ∧ c5wSt.pool.length ≤ c5wSt.pool.length ∧
    (∀ i, i < c5wSt.pool.length → i ≠ 0 → c5wSt.pool[i]? = c5wSt.pool[i]?) :=
  c5_cex_pool_invariant ⟨⟨1, 3⟩, ⟨3, 5⟩, ⟨5, 7⟩, ⟨7, 7⟩, ⟨7, 7⟩, ⟨7, 7⟩⟩ [] 0
    1 true 0 0 c5wSt [] true c5wSt [] rfl (by decide) (by decide)
    (by decide) (by decide) (by decide)

/-- C7: at level 0 `solve_obligation` returns true exactly when the
obligation's `s` and `t` cubes are equal as literal sequences or the
concrete-edge query (`has_concrete_edge`) is SAT; when it returns false it
returns immediately — the verifier state, in particular the frame stack,
is unchanged, so no blocked arrow is inserted anywhere. -/
theorem c7_solve_obligation_level0 (L : Layout) (activators : List Nat)
    (fuel h : Nat) (st : VState) (tape : List QAns) (ans : Option Cube)
    (e : CexEntry) (he : st.pool[h]? = some e) :
    ∃ b st' tape',
      sOgo L activators (fuel + 1) true 0 h st (QAns.edge ans :: tape) =
        some (b, st', tape') ∧
      (b = true ↔ (e.s.lits = e.t.lits ∨ ans.isSome = true)) ∧
      (b = false → st' = st) := by
  by_cases hst : e.s.lits = e.t.lits
  · refine ⟨true, st, QAns.edge ans :: tape, ?_, ?_, ?_⟩
    · simp only [sOgo, he]
      rw [if_pos hst]
    · exact ⟨fun _ => Or.inl hst, fun _ => rfl⟩
    · intro hb
      exact nomatch hb
  · cases ans with
    | some inp =>
      refine ⟨true,
        { st with pool := st.pool.set h { e with inputs := some inp } },
        tape, ?_, ?_, ?_⟩
      · simp only [sOgo, he]
        rw [if_neg hst]
      · exact ⟨fun _ => Or.inr rfl, fun _ => rfl⟩
      · intro hb
        exact nomatch hb
    | none =>
      refine ⟨false, st, tape, ?_, ?_, ?_⟩
      · simp only [sOgo, he]
        rw [if_neg hst]
      · constructor
        · intro hb
          exact nomatch hb
        · intro hor
          rcases hor with hx | hx
          · exact absurd hx hst
          · exact nomatch hx
      · intro _
        rfl

/-- Concrete one-node pool used by the level-0 witness: source and target
cubes differ, the edge query answers UNSAT. -/
def c7wSt : VState :=
  ⟨[⟨Cube.ofSorted [1], Cube.ofSorted [-1], none, none, none⟩], []⟩

theorem c7_solve_obligation_level0_witness :
    ∃ b st' tape',
      sOgo ⟨⟨1, 3⟩, ⟨3, 5⟩, ⟨5, 7⟩, ⟨7, 7⟩, ⟨7, 7⟩, ⟨7, 7⟩⟩ [] (0 + 1) true 0 0
        c7wSt (QAns.edge none :: []) = some (b, st', tape') ∧
      (b = true ↔ ((Cube.ofSorted [1]).lits = (Cube.ofSorted [-1]).lits ∨
        (none : Option Cube).isSome = true)) ∧
      (b = false → st' = c7wSt) :=
  c7_solve_obligation_level0 ⟨⟨1, 3⟩, ⟨3, 5⟩, ⟨5, 7⟩, ⟨7, 7⟩, ⟨7, 7⟩, ⟨7, 7⟩⟩
    [] 0 0 c7wSt [] none
    ⟨Cube.ofSorted [1], Cube.ofSorted [-1], none, none, none⟩ rfl

end Pdrtpa
